import Mathlib

/-!
# One Lloyd step of naive k-means (`naive_kmeans_impl.hpp`)

Shallow embedding of `NaiveKMeans::NaiveKMeans` and `NaiveKMeans::Iterate`.

* Coordinates and metric values are elements of a linearly ordered field `α`
  (exact arithmetic), so `metric.Evaluate` is a function `List α → List α → α`.  The
  only non-finite double of the source, the literal
  `std::numeric_limits<double>::infinity()` that initialises `minDistance`, is the
  constructor `MinDist.infinity`.
* An `arma::mat` is a record of its row count and the list of its columns; a point or
  a centroid is one column.  `col += point` adds entry by entry; on columns of one
  length, which is what matching shapes give, no entry is lost.
* `std::sqrt` is a parameter of `Iterate`; `std::pow(x, 2.0)` is `x ^ 2`; `DBL_MAX` is
  its value `(2 ^ 53 - 1) * 2 ^ 971`.
* `Log::Assert` failing is the result `none`.
* `distanceCalculations` is a `size_t`: its update and the product `n_cols * n_cols`
  wrap modulo `2 ^ 64`.  An entry of `counts` never exceeds `dataset.n_cols`, itself a
  `size_t`, so `counts(j)++` cannot wrap and is the successor on `Nat`.
* What holds in exact arithmetic need not hold for the doubles the code computes with:
  the loops are therefore given a second time over IEEE 754 binary64 values (`Dbl`,
  `IterateDbl`), with rounding, underflow and overflow, and the statements that rounding
  decides are evaluated there.
-/

namespace kmeans

variable {α : Type} [LinearOrderedField α]

/-! ## Data model -/

/-- Column-major matrix: `n_rows` and the list of columns (`n_cols` is its length). -/
structure Mat (α : Type) where
  n_rows : Nat
  cols : List (List α)

/-- Number of columns of a matrix. -/
def Mat.n_cols (m : Mat α) : Nat := m.cols.length

/-- Shape discipline of `arma::mat`: every column has `n_rows` entries. -/
def Mat.WF (m : Mat α) : Prop := ∀ c ∈ m.cols, c.length = m.n_rows

/-- The matrix built by `zeros(n_rows, n_cols)`. -/
def Mat.zeros (r c : Nat) : Mat α := ⟨r, List.replicate c (List.replicate r 0)⟩

/-- Value of `minDistance`: the initial infinity, or a metric value. -/
inductive MinDist (α : Type) where
  | infinity : MinDist α
  | finite (x : α) : MinDist α

/-- The test `distance < minDistance`. -/
def MinDist.lt (distance : α) : MinDist α → Bool
  | MinDist.infinity => true
  | MinDist.finite m => decide (distance < m)

/-- The constant `DBL_MAX` of `<cfloat>`: `(2 ^ 53 - 1) * 2 ^ 971`. -/
def DBL_MAX : α := (2 ^ 53 - 1) * 2 ^ 971

/-- Width in bits of `size_t`, the type of `distanceCalculations` and of `n_cols`. -/
def SIZE_BITS : Nat := 64

/-- The kernel object: dataset, metric and the distance-evaluation counter. -/
structure NaiveKMeans (α : Type) where
  dataset : Mat α
  metric : List α → List α → α
  distanceCalculations : Nat

/-- The constructor `NaiveKMeans::NaiveKMeans(dataset, metric)`. -/
def NaiveKMeans.new (dataset : Mat α) (metric : List α → List α → α) :
    NaiveKMeans α :=
  { dataset := dataset, metric := metric, distanceCalculations := 0 }

/-- What a returning call of `Iterate` leaves behind: the kernel with its updated
counter, the two output buffers, and the returned value. -/
structure IterateResult (α : Type) where
  self : NaiveKMeans α
  newCentroids : Mat α
  counts : List Nat
  distortion : α

/-! ## The loops of `Iterate` -/

/-- Element-wise `a += b` on columns. -/
def vecAdd (a b : List α) : List α := List.zipWith (· + ·) a b

/-- Apply `f` to entry `j` of a list (column `j` of a matrix, entry `j` of `counts`). -/
def modifyAt {β : Type} (f : β → β) : Nat → List β → List β
  | _, [] => []
  | 0, x :: xs => f x :: xs
  | j + 1, x :: xs => x :: modifyAt f j xs

/-- The inner loop (lines 42-51) from index `j` on, over the remaining centroids,
carrying `minDistance` and `closestCluster`. -/
def scanCentroids (metric : List α → List α → α) (p : List α) :
    List (List α) → Nat → MinDist α → Nat → MinDist α × Nat
  | [], _, minDistance, closestCluster => (minDistance, closestCluster)
  | c :: rest, j, minDistance, closestCluster =>
    let distance := metric p c
    if MinDist.lt distance minDistance then
      scanCentroids metric p rest (j + 1) (MinDist.finite distance) j
    else
      scanCentroids metric p rest (j + 1) minDistance closestCluster

/-- Lines 39-51 for one point: `closestCluster` after the scan, started at the invalid
value `centroids.n_cols`. -/
def closestCluster (metric : List α → List α → α) (centroids : Mat α) (p : List α) : Nat :=
  (scanCentroids metric p centroids.cols 0 MinDist.infinity centroids.n_cols).2

/-- The outer loop (lines 36-58) over the remaining points, carrying the columns of
`newCentroids` and `counts`; `none` when `Log::Assert` fails. -/
def assignPoints (metric : List α → List α → α) (centroids : Mat α) :
    List (List α) → List (List α) → List Nat → Option (List (List α) × List Nat)
  | [], newCols, counts => some (newCols, counts)
  | p :: rest, newCols, counts =>
    let cc := closestCluster metric centroids p
    if cc = centroids.n_cols then none
    else
      assignPoints metric centroids rest
        (modifyAt (fun col => vecAdd col p) cc newCols)
        (modifyAt (· + 1) cc counts)

/-- One round of the normalisation loop (lines 61-65) on column `i` with `counts(i)`. -/
def normalizeCol (col : List α) (count : Nat) : List α :=
  if count ≠ 0 then col.map (· / (count : α)) else col.map (fun _ => DBL_MAX)

/-- The normalisation loop (lines 61-65): `newCentroids` and `counts` both have
`centroids.n_cols` entries, and round `i` touches column `i` and reads `counts(i)`. -/
def normalize (newCols : List (List α)) (counts : List Nat) : List (List α) :=
  List.zipWith normalizeCol newCols counts

/-- The loop of lines 70-76 over the remaining columns of `centroids` and
`newCentroids`, carrying `cNorm`. -/
def cNormLoop (metric : List α → List α → α) :
    List (List α) → List (List α) → α → α
  | c :: cs, n :: ns, cNorm =>
    let dist := (metric c n) ^ 2
    cNormLoop metric cs ns (cNorm + dist ^ 2)
  | _, _, cNorm => cNorm

/-- The method `NaiveKMeans::Iterate(centroids, newCentroids, counts)`; the last two
arguments are the caller's buffers as they are on entry. -/
def NaiveKMeans.Iterate (sqrt : α → α) (self : NaiveKMeans α) (centroids : Mat α)
    (newCentroids : Mat α) (counts : List Nat) : Option (IterateResult α) :=
  let newCentroids : Mat α := Mat.zeros centroids.n_rows centroids.n_cols
  let counts : List Nat := List.replicate centroids.n_cols 0
  match assignPoints self.metric centroids self.dataset.cols newCentroids.cols counts with
  | none => none
  | some (newCols, counts) =>
    let newCentroids : Mat α := { newCentroids with cols := normalize newCols counts }
    let distanceCalculations :=
      (self.distanceCalculations
        + (centroids.n_cols * self.dataset.n_cols) % 2 ^ SIZE_BITS) % 2 ^ SIZE_BITS
    let cNorm := cNormLoop self.metric centroids.cols newCentroids.cols 0
    some { self := { self with distanceCalculations := distanceCalculations }
           newCentroids := newCentroids
           counts := counts
           distortion := sqrt cNorm }

/-! ## Metrics used in the scenarios -/

/-- Sum of squared coordinate differences of two columns. -/
def sqDist (a b : List α) : α := (List.zipWith (fun x y => (x - y) ^ 2) a b).sum

/-- The Euclidean metric, over the same `sqrt` as `Iterate`. -/
def euclidean (sqrt : α → α) (a b : List α) : α := sqrt (sqDist a b)

/-! ## Repeated calls on one kernel -/

/-- A caller running `Iterate` once per centroid set of `calls`, in order, on the same
kernel, handing each call the buffers the previous one left; the kernel after the last
call, or `none` as soon as one call fails. -/
def iterateCalls (sqrt : α → α) :
    NaiveKMeans α → List (Mat α) → Mat α → List Nat → Option (NaiveKMeans α)
  | self, [], _, _ => some self
  | self, centroids :: rest, newCentroids, counts =>
    match self.Iterate sqrt centroids newCentroids counts with
    | none => none
    | some r => iterateCalls sqrt r.self rest r.newCentroids r.counts

/-! ## The accumulation phase as a fold -/

/-- The accumulation phase of `Iterate` (lines 32-58) on the points `ps`: the outer loop
started from the zeroed `newCentroids` and `counts`. -/
def accumulate (metric : List α → List α → α) (centroids : Mat α) (ps : List (List α)) :
    Option (List (List α) × List Nat) :=
  assignPoints metric centroids ps
    (Mat.zeros centroids.n_rows centroids.n_cols : Mat α).cols
    (List.replicate centroids.n_cols 0)

/-- Element-wise sum of two partial results (per-cluster coordinate sums and counts). -/
def combine (a b : List (List α) × List Nat) : List (List α) × List Nat :=
  (List.zipWith vecAdd a.1 b.1, List.zipWith (· + ·) a.2 b.2)

/-! ## Counting the calls of `metric.Evaluate`

The same loops once more, each carrying a tally `evals` that goes up by one at every
call of `metric.Evaluate` in the source (line 44 and line 74) and nowhere else. -/

/-- The inner loop (lines 42-51) with the tally of `metric.Evaluate` calls. -/
def scanCentroidsEvals (metric : List α → List α → α) (p : List α) :
    List (List α) → Nat → MinDist α → Nat → Nat → MinDist α × Nat × Nat
  | [], _, minDistance, closestCluster, evals => (minDistance, closestCluster, evals)
  | c :: rest, j, minDistance, closestCluster, evals =>
    let distance := metric p c
    if MinDist.lt distance minDistance then
      scanCentroidsEvals metric p rest (j + 1) (MinDist.finite distance) j (evals + 1)
    else
      scanCentroidsEvals metric p rest (j + 1) minDistance closestCluster (evals + 1)

/-- The outer loop (lines 36-58) with the tally of `metric.Evaluate` calls. -/
def assignPointsEvals (metric : List α → List α → α) (centroids : Mat α) :
    List (List α) → List (List α) → List Nat → Nat →
      Option (List (List α) × List Nat × Nat)
  | [], newCols, counts, evals => some (newCols, counts, evals)
  | p :: rest, newCols, counts, evals =>
    let scan := scanCentroidsEvals metric p centroids.cols 0 MinDist.infinity
      centroids.n_cols evals
    let cc := scan.2.1
    if cc = centroids.n_cols then none
    else
      assignPointsEvals metric centroids rest
        (modifyAt (fun col => vecAdd col p) cc newCols)
        (modifyAt (· + 1) cc counts) scan.2.2

/-- The loop of lines 70-76 with the tally of `metric.Evaluate` calls. -/
def cNormLoopEvals (metric : List α → List α → α) :
    List (List α) → List (List α) → α → Nat → α × Nat
  | c :: cs, n :: ns, cNorm, evals =>
    let dist := (metric c n) ^ 2
    cNormLoopEvals metric cs ns (cNorm + dist ^ 2) (evals + 1)
  | _, _, cNorm, evals => (cNorm, evals)

/-- The method `Iterate` with the tally of `metric.Evaluate` calls: the result of the
call and the tally after it. -/
def NaiveKMeans.IterateEvals (sqrt : α → α) (self : NaiveKMeans α) (centroids : Mat α)
    (newCentroids : Mat α) (counts : List Nat) (evals : Nat) :
    Option (IterateResult α × Nat) :=
  let newCentroids : Mat α := Mat.zeros centroids.n_rows centroids.n_cols
  let counts : List Nat := List.replicate centroids.n_cols 0
  match assignPointsEvals self.metric centroids self.dataset.cols newCentroids.cols
      counts evals with
  | none => none
  | some (newCols, counts, evals) =>
    let newCentroids : Mat α := { newCentroids with cols := normalize newCols counts }
    let distanceCalculations :=
      (self.distanceCalculations
        + (centroids.n_cols * self.dataset.n_cols) % 2 ^ SIZE_BITS) % 2 ^ SIZE_BITS
    let cNorm := cNormLoopEvals self.metric centroids.cols newCentroids.cols 0 evals
    some ({ self := { self with distanceCalculations := distanceCalculations }
            newCentroids := newCentroids
            counts := counts
            distortion := sqrt cNorm.1 }, cNorm.2)

/-- The caller of `iterateCalls` with the tally of `metric.Evaluate` calls. -/
def iterateCallsEvals (sqrt : α → α) :
    NaiveKMeans α → List (Mat α) → Mat α → List Nat → Nat → Option (NaiveKMeans α × Nat)
  | self, [], _, _, evals => some (self, evals)
  | self, centroids :: rest, newCentroids, counts, evals =>
    match self.IterateEvals sqrt centroids newCentroids counts evals with
    | none => none
    | some (r, evals) => iterateCallsEvals sqrt r.self rest r.newCentroids r.counts evals

/-! ## Binary64 arithmetic

Where a claim is decided by rounding, underflow or overflow, the loops are read once more
over IEEE 754 binary64 values: a finite double is the rational it denotes (the sign of a
zero is not kept), every operation rounds to nearest, ties to even, and `std::pow(x, 2.0)`
is taken as the correctly rounded product `x * x`. -/

/-- A binary64 value: a finite double, an infinity or NaN. -/
inductive Dbl where
  | fin (q : ℚ) : Dbl
  | posInf : Dbl
  | negInf : Dbl
  | nan : Dbl
deriving DecidableEq

/-- The power `2 ^ z` for an integer exponent. -/
def Dbl.twoPow (z : Int) : ℚ :=
  if 0 ≤ z then (2 : ℚ) ^ z.toNat else 1 / (2 : ℚ) ^ (-z).toNat

/-- Number of binary digits of `n` (the first argument bounds the recursion). -/
def Dbl.bitLength : Nat → Nat → Nat
  | 0, _ => 0
  | fuel + 1, n => if n = 0 then 0 else Dbl.bitLength fuel (n / 2) + 1

/-- The integer `e` with `2 ^ e ≤ |x| < 2 ^ (e + 1)`, for `x ≠ 0`. -/
def Dbl.ilog2 (x : ℚ) : Int :=
  let e : Int := (Dbl.bitLength x.num.natAbs x.num.natAbs : Int)
    - (Dbl.bitLength x.den x.den : Int)
  if Dbl.twoPow e ≤ |x| then e else e - 1

/-- The integer nearest to `t`, the even one of the two when `t` lies halfway. -/
def Dbl.roundToEven (t : ℚ) : Int :=
  let f := Rat.floor t
  let r := t - f
  if r < 1 / 2 then f else if 1 / 2 < r then f + 1 else if f % 2 = 0 then f else f + 1

/-- The double nearest to the real number `x` (ties to even): a multiple of
`2 ^ (e - 52)` with `e` the exponent of `x`, at least `-1022`; an infinity when the
rounded magnitude reaches `2 ^ 1024`. -/
def Dbl.round (x : ℚ) : Dbl :=
  if x = 0 then Dbl.fin 0
  else
    let e := max (Dbl.ilog2 x) (-1022)
    let u := Dbl.twoPow (e - 52)
    let y := (Dbl.roundToEven (x / u) : ℚ) * u
    if (2 : ℚ) ^ 1024 ≤ |y| then (if 0 < x then Dbl.posInf else Dbl.negInf) else Dbl.fin y

/-- The sum `x + y` of two doubles. -/
def Dbl.add : Dbl → Dbl → Dbl
  | Dbl.fin a, Dbl.fin b => Dbl.round (a + b)
  | Dbl.nan, _ => Dbl.nan
  | _, Dbl.nan => Dbl.nan
  | Dbl.posInf, Dbl.negInf => Dbl.nan
  | Dbl.negInf, Dbl.posInf => Dbl.nan
  | Dbl.posInf, _ => Dbl.posInf
  | _, Dbl.posInf => Dbl.posInf
  | Dbl.negInf, _ => Dbl.negInf
  | _, Dbl.negInf => Dbl.negInf

/-- The negation `-x` of a double. -/
def Dbl.neg : Dbl → Dbl
  | Dbl.fin a => Dbl.fin (-a)
  | Dbl.posInf => Dbl.negInf
  | Dbl.negInf => Dbl.posInf
  | Dbl.nan => Dbl.nan

/-- The difference `x - y` of two doubles. -/
def Dbl.sub (x y : Dbl) : Dbl := Dbl.add x (Dbl.neg y)

/-- The value of `std::pow(x, 2.0)`. -/
def Dbl.pow2 : Dbl → Dbl
  | Dbl.fin a => Dbl.round (a * a)
  | Dbl.posInf => Dbl.posInf
  | Dbl.negInf => Dbl.posInf
  | Dbl.nan => Dbl.nan

/-- The quotient `x / n` of a double by a count `n > 0` converted to double. -/
def Dbl.divCount (x : Dbl) (n : Nat) : Dbl :=
  match x, Dbl.round n with
  | Dbl.fin a, Dbl.fin b => Dbl.round (a / b)
  | Dbl.fin _, _ => Dbl.fin 0
  | Dbl.nan, _ => Dbl.nan
  | x, Dbl.fin _ => x
  | _, _ => Dbl.nan

/-- The test `x < y` on doubles; false as soon as one side is NaN. -/
def Dbl.lt : Dbl → Dbl → Bool
  | Dbl.fin a, Dbl.fin b => decide (a < b)
  | Dbl.fin _, Dbl.posInf => true
  | Dbl.negInf, Dbl.fin _ => true
  | Dbl.negInf, Dbl.posInf => true
  | _, _ => false

/-- The largest `m < 2 ^ (bit + 1) + acc` built from the bits below `bit + 1` on top of
`acc` with `m * m ≤ t`. -/
def Dbl.sqrtBits (t : ℚ) : Nat → Nat → Nat
  | 0, acc => if (((acc + 1 : Nat) : ℚ)) ^ 2 ≤ t then acc + 1 else acc
  | bit + 1, acc =>
    if (((acc + 2 ^ (bit + 1) : Nat) : ℚ)) ^ 2 ≤ t then
      Dbl.sqrtBits t bit (acc + 2 ^ (bit + 1))
    else Dbl.sqrtBits t bit acc

/-- The value of `std::sqrt(x)`: the double nearest to the square root. -/
def Dbl.sqrt : Dbl → Dbl
  | Dbl.nan => Dbl.nan
  | Dbl.negInf => Dbl.nan
  | Dbl.posInf => Dbl.posInf
  | Dbl.fin q =>
    if q < 0 then Dbl.nan
    else if q = 0 then Dbl.fin 0
    else
      let k := Int.fdiv (Dbl.ilog2 q) 2
      let u := Dbl.twoPow (k - 52)
      let t := q / (u * u)
      let m := Dbl.sqrtBits t 52 0
      let h : ℚ := (m : ℚ) + 1 / 2
      let m2 : Nat := if t < h ^ 2 then m else if h ^ 2 < t then m + 1
        else if m % 2 = 0 then m else m + 1
      Dbl.fin ((m2 : ℚ) * u)

/-- The constant `DBL_MAX` as a double. -/
def Dbl.DBL_MAX : Dbl := Dbl.fin ((2 ^ 53 - 1) * 2 ^ 971)

/-! ## The loops of `Iterate` in binary64 arithmetic -/

/-- Element-wise `a += b` on columns of doubles (line 56). -/
def vecAddDbl (a b : List Dbl) : List Dbl := List.zipWith Dbl.add a b

/-- The inner loop (lines 42-51) on doubles; `minDistance` starts at `+inf`. -/
def scanCentroidsDbl (metric : List Dbl → List Dbl → Dbl) (p : List Dbl) :
    List (List Dbl) → Nat → Dbl → Nat → Dbl × Nat
  | [], _, minDistance, closestCluster => (minDistance, closestCluster)
  | c :: rest, j, minDistance, closestCluster =>
    let distance := metric p c
    if Dbl.lt distance minDistance then
      scanCentroidsDbl metric p rest (j + 1) distance j
    else
      scanCentroidsDbl metric p rest (j + 1) minDistance closestCluster

/-- Lines 39-51 for one point, on doubles. -/
def closestClusterDbl (metric : List Dbl → List Dbl → Dbl) (centroids : Mat Dbl)
    (p : List Dbl) : Nat :=
  (scanCentroidsDbl metric p centroids.cols 0 Dbl.posInf centroids.cols.length).2

/-- The outer loop (lines 36-58) on doubles; `none` when `Log::Assert` fails. -/
def assignPointsDbl (metric : List Dbl → List Dbl → Dbl) (centroids : Mat Dbl) :
    List (List Dbl) → List (List Dbl) → List Nat → Option (List (List Dbl) × List Nat)
  | [], newCols, counts => some (newCols, counts)
  | p :: rest, newCols, counts =>
    let cc := closestClusterDbl metric centroids p
    if cc = centroids.cols.length then none
    else
      assignPointsDbl metric centroids rest
        (modifyAt (fun col => vecAddDbl col p) cc newCols)
        (modifyAt (· + 1) cc counts)

/-- One round of the normalisation loop (lines 61-65) on doubles. -/
def normalizeColDbl (col : List Dbl) (count : Nat) : List Dbl :=
  if count ≠ 0 then col.map (fun x => Dbl.divCount x count)
  else col.map (fun _ => Dbl.DBL_MAX)

/-- The normalisation loop (lines 61-65) on doubles. -/
def normalizeDbl (newCols : List (List Dbl)) (counts : List Nat) : List (List Dbl) :=
  List.zipWith normalizeColDbl newCols counts

/-- The loop of lines 70-76 on doubles: two `std::pow` and one `+=` per centroid. -/
def cNormLoopDbl (metric : List Dbl → List Dbl → Dbl) :
    List (List Dbl) → List (List Dbl) → Dbl → Dbl
  | c :: cs, n :: ns, cNorm =>
    let dist := Dbl.pow2 (metric c n)
    cNormLoopDbl metric cs ns (Dbl.add cNorm (Dbl.pow2 dist))
  | _, _, cNorm => cNorm

/-- The method `NaiveKMeans::Iterate` in binary64 arithmetic. -/
def IterateDbl (self : NaiveKMeans Dbl) (centroids : Mat Dbl)
    (newCentroids : Mat Dbl) (counts : List Nat) : Option (IterateResult Dbl) :=
  let newCentroids : Mat Dbl :=
    ⟨centroids.n_rows,
      List.replicate centroids.cols.length (List.replicate centroids.n_rows (Dbl.fin 0))⟩
  let counts : List Nat := List.replicate centroids.cols.length 0
  match assignPointsDbl self.metric centroids self.dataset.cols newCentroids.cols counts with
  | none => none
  | some (newCols, counts) =>
    let newCentroids : Mat Dbl := { newCentroids with cols := normalizeDbl newCols counts }
    let distanceCalculations :=
      (self.distanceCalculations
        + (centroids.cols.length * self.dataset.cols.length) % 2 ^ SIZE_BITS) % 2 ^ SIZE_BITS
    let cNorm := cNormLoopDbl self.metric centroids.cols newCentroids.cols (Dbl.fin 0)
    some { self := { self with distanceCalculations := distanceCalculations }
           newCentroids := newCentroids
           counts := counts
           distortion := Dbl.sqrt cNorm }

/-- The accumulation phase (lines 32-58) in binary64 arithmetic. -/
def accumulateDbl (metric : List Dbl → List Dbl → Dbl) (centroids : Mat Dbl)
    (ps : List (List Dbl)) : Option (List (List Dbl) × List Nat) :=
  assignPointsDbl metric centroids ps
    (List.replicate centroids.cols.length (List.replicate centroids.n_rows (Dbl.fin 0)))
    (List.replicate centroids.cols.length 0)

/-- Element-wise sum of two partial results in binary64 arithmetic. -/
def combineDbl (a b : List (List Dbl) × List Nat) : List (List Dbl) × List Nat :=
  (List.zipWith vecAddDbl a.1 b.1, List.zipWith (· + ·) a.2 b.2)

/-- The squared Euclidean distance on doubles: the differences are squared with
`std::pow` and summed from `0.0` in index order. -/
def sqDistDbl (a b : List Dbl) : Dbl :=
  (List.zipWith (fun x y => Dbl.pow2 (Dbl.sub x y)) a b).foldl Dbl.add (Dbl.fin 0)

/-- The Euclidean metric on doubles. -/
def euclideanDbl (a b : List Dbl) : Dbl := Dbl.sqrt (sqDistDbl a b)

/-! ## Specification-side notions -/

/-- Metric distance from `p` to centroid `i`. -/
def distTo (metric : List α → List α → α) (cs : List (List α)) (p : List α) (i : Nat) : α :=
  metric p (cs.getD i [])

/-- Centroid `j` is the lowest index among the centroids at minimum distance from `p`. -/
def IsNearest (metric : List α → List α → α) (cs : List (List α)) (p : List α)
    (j : Nat) : Prop :=
  j < cs.length ∧ (∀ i, i < cs.length → distTo metric cs p j ≤ distTo metric cs p i)
    ∧ (∀ i, i < j → distTo metric cs p j < distTo metric cs p i)

instance (metric : List α → List α → α) (cs : List (List α)) (p : List α) (j : Nat) :
    Decidable (IsNearest metric cs p j) := by
  unfold IsNearest; infer_instance

/-- Loop invariant of the scan after `n` centroids. -/
def ScanInv (metric : List α → List α → α) (cs : List (List α)) (p : List α)
    (n : Nat) (minDistance : MinDist α) (cc : Nat) : Prop :=
  (n = 0 ∧ minDistance = MinDist.infinity ∧ cc = cs.length) ∨
  (cc < n ∧ minDistance = MinDist.finite (distTo metric cs p cc)
    ∧ (∀ i, i < n → distTo metric cs p cc ≤ distTo metric cs p i)
    ∧ (∀ i, i < cc → distTo metric cs p cc < distTo metric cs p i))

/-- The points of `ps` that the scan sends to cluster `j`. -/
def assignedTo (metric : List α → List α → α) (centroids : Mat α) (j : Nat)
    (ps : List (List α)) : List (List α) :=
  ps.filter (fun p => decide (closestCluster metric centroids p = j))

/-- The points of `ps` whose nearest centroid, lowest index among the closest, is `j`. -/
def nearestPoints (metric : List α → List α → α) (cs : List (List α)) (j : Nat)
    (ps : List (List α)) : List (List α) :=
  ps.filter (fun p => decide (IsNearest metric cs p j))

/-- Coordinate `i` of the arithmetic mean of the points `qs`. -/
def meanCoord (qs : List (List α)) (i : Nat) : α :=
  (qs.map (fun q => q.getD i 0)).sum / (qs.length : α)

/-! ## Data of the worked scenarios -/

/-- The four points of the worked scenario, over the rationals. -/
def scenarioData : Mat ℚ := ⟨2, [[0, 0], [0, 2], [10, 10], [10, 12]]⟩

/-- The two initial centroids of the worked scenario, over the rationals. -/
def scenarioCentroids : Mat ℚ := ⟨2, [[0, 0], [10, 10]]⟩

/-- A fresh kernel on the scenario's points with the squared Euclidean distance. -/
def scenarioKernel : NaiveKMeans ℚ := NaiveKMeans.new scenarioData sqDist

/-- A dataset of `2 ^ 32` one-dimensional points, all zero. -/
def bigData : Mat ℚ := ⟨1, List.replicate (2 ^ 32) [0]⟩

/-- A fresh binary64 kernel on the single one-dimensional point `2 ^ (-200)`, with the
squared Euclidean distance. -/
def tinyKernel : NaiveKMeans Dbl :=
  { dataset := ⟨1, [[Dbl.fin (1 / 2 ^ 200)]]⟩
    metric := sqDistDbl
    distanceCalculations := 0 }

/-- The one-dimensional centroid set with the single centroid `0`, in binary64. -/
def zeroCentroid : Mat Dbl := ⟨1, [[Dbl.fin 0]]⟩

/-! ## Lemmas on the loops -/

theorem modifyAt_length {β : Type} (f : β → β) : ∀ (j : Nat) (l : List β),
    (modifyAt f j l).length = l.length
  | _, [] => by simp [modifyAt]
  | 0, _ :: _ => rfl
  | j + 1, _ :: xs => by simp [modifyAt, modifyAt_length f j xs]

theorem modifyAt_getD {β : Type} (f : β → β) (d : β) : ∀ (j : Nat) (l : List β) (i : Nat),
    j < l.length →
    (modifyAt f j l).getD i d = if i = j then f (l.getD i d) else l.getD i d
  | _, [], _, h => by simp at h
  | 0, x :: xs, i, _ => by
    cases i with
    | zero => simp [modifyAt]
    | succ i => simp [modifyAt]
  | j + 1, x :: xs, i, h => by
    cases i with
    | zero => simp [modifyAt]
    | succ i =>
      have := modifyAt_getD f d j xs i (by simpa using h)
      simpa [modifyAt] using this

theorem scanCentroids_inv (metric : List α → List α → α) (cs : List (List α)) (p : List α) :
    ∀ (rest : List (List α)) (j : Nat) (minDistance : MinDist α) (cc : Nat),
      j + rest.length = cs.length → cs.drop j = rest → ScanInv metric cs p j minDistance cc →
      ScanInv metric cs p cs.length (scanCentroids metric p rest j minDistance cc).1
        (scanCentroids metric p rest j minDistance cc).2
  | [], j, minDistance, cc, hlen, _, hinv => by
    have hj : j = cs.length := by simpa using hlen
    subst hj
    simpa only [scanCentroids] using hinv
  | c :: rest, j, minDistance, cc, hlen, hdrop, hinv => by
    have hjlt : j < cs.length := by simp at hlen; omega
    have hc : distTo metric cs p j = metric p c := by
      have h1 : cs[j]? = some c := by
        have := congrArg List.head? hdrop
        simpa [List.head?_drop] using this
      simp [distTo, List.getD_eq_getElem?_getD, h1]
    have hdrop2 : cs.drop (j + 1) = rest := by
      have := congrArg List.tail hdrop
      simpa using this
    have hlen2 : j + 1 + rest.length = cs.length := by simp at hlen; omega
    simp only [scanCentroids]
    split
    · rename_i hlt
      apply scanCentroids_inv metric cs p rest (j + 1) _ _ hlen2 hdrop2
      right
      refine ⟨Nat.lt_succ_self j, by rw [hc], ?_, ?_⟩
      · intro i hi
        rcases hinv with ⟨h0, hm, _⟩ | ⟨hcc, hm, hle, _⟩
        · have : i = j := by omega
          subst this; exact le_refl _
        · rcases Nat.lt_succ_iff_lt_or_eq.mp hi with h | h
          · have h2 : metric p c < distTo metric cs p cc := by
              simpa [hm, MinDist.lt] using hlt
            rw [hc]; exact le_trans (le_of_lt h2) (hle i h)
          · subst h; exact le_refl _
      · intro i hi
        rcases hinv with ⟨h0, hm, _⟩ | ⟨hcc, hm, hle, _⟩
        · omega
        · have h2 : metric p c < distTo metric cs p cc := by
            simpa [hm, MinDist.lt] using hlt
          rw [hc]; exact lt_of_lt_of_le h2 (hle i hi)
    · rename_i hlt
      apply scanCentroids_inv metric cs p rest (j + 1) _ _ hlen2 hdrop2
      rcases hinv with ⟨h0, hm, _⟩ | ⟨hcc, hm, hle, hlow⟩
      · simp [hm, MinDist.lt] at hlt
      · right
        refine ⟨by omega, hm, ?_, hlow⟩
        intro i hi
        rcases Nat.lt_succ_iff_lt_or_eq.mp hi with h | h
        · exact hle i h
        · subst h
          have h2 : ¬ metric p c < distTo metric cs p cc := by
            simpa [hm, MinDist.lt] using hlt
          rw [hc]; exact not_lt.mp h2

theorem closestCluster_isNearest (metric : List α → List α → α) (centroids : Mat α)
    (p : List α) (hK : 1 ≤ centroids.n_cols) :
    IsNearest metric centroids.cols p (closestCluster metric centroids p) := by
  have h := scanCentroids_inv metric centroids.cols p centroids.cols 0 MinDist.infinity
    centroids.n_cols (by simp) (by simp) (Or.inl ⟨rfl, rfl, rfl⟩)
  unfold Mat.n_cols at hK
  rcases h with ⟨h0, _, _⟩ | ⟨hcc, _, hle, hlow⟩
  · omega
  · exact ⟨hcc, hle, hlow⟩

theorem isNearest_unique (metric : List α → List α → α) (cs : List (List α)) (p : List α)
    (i j : Nat) (hi : IsNearest metric cs p i) (hj : IsNearest metric cs p j) : i = j := by
  rcases Nat.lt_trichotomy i j with h | h | h
  · exact absurd (hi.2.1 j hj.1) (not_le.mpr (hj.2.2 i h))
  · exact h
  · exact absurd (hj.2.1 i hi.1) (not_le.mpr (hi.2.2 j h))

theorem closestCluster_eq_iff (metric : List α → List α → α) (centroids : Mat α)
    (p : List α) (hK : 1 ≤ centroids.n_cols) (j : Nat) :
    closestCluster metric centroids p = j ↔ IsNearest metric centroids.cols p j :=
  ⟨fun h => h ▸ closestCluster_isNearest metric centroids p hK,
   fun h => isNearest_unique metric centroids.cols p _ _
     (closestCluster_isNearest metric centroids p hK) h⟩

theorem assignPoints_spec (metric : List α → List α → α) (centroids : Mat α)
    (hK : 1 ≤ centroids.n_cols) :
    ∀ (ps : List (List α)) (cols : List (List α)) (counts : List Nat),
      cols.length = centroids.n_cols → counts.length = centroids.n_cols →
      ∃ newCols newCounts,
        assignPoints metric centroids ps cols counts = some (newCols, newCounts) ∧
        newCols.length = centroids.n_cols ∧ newCounts.length = centroids.n_cols ∧
        ∀ j, newCols.getD j [] =
              (assignedTo metric centroids j ps).foldl vecAdd (cols.getD j []) ∧
            newCounts.getD j 0 = counts.getD j 0 + (assignedTo metric centroids j ps).length
  | [], cols, counts, hc, hn => ⟨cols, counts, rfl, hc, hn, fun j => by simp [assignedTo]⟩
  | p :: rest, cols, counts, hc, hn => by
    have hcc : closestCluster metric centroids p < centroids.n_cols :=
      (closestCluster_isNearest metric centroids p hK).1
    obtain ⟨newCols, newCounts, hres, hl1, hl2, hall⟩ :=
      assignPoints_spec metric centroids hK rest
        (modifyAt (fun col => vecAdd col p) (closestCluster metric centroids p) cols)
        (modifyAt (· + 1) (closestCluster metric centroids p) counts)
        (by rw [modifyAt_length, hc]) (by rw [modifyAt_length, hn])
    refine ⟨newCols, newCounts, ?_, hl1, hl2, ?_⟩
    · simp only [assignPoints]
      rw [if_neg (Nat.ne_of_lt hcc)]
      exact hres
    · intro j
      obtain ⟨h1, h2⟩ := hall j
      rw [h1, h2, modifyAt_getD _ _ _ _ _ (hc ▸ hcc), modifyAt_getD _ _ _ _ _ (hn ▸ hcc)]
      by_cases hj : j = closestCluster metric centroids p
      · subst hj
        simp [assignedTo, List.filter_cons]
        omega
      · have hj2 : ¬ closestCluster metric centroids p = j := fun h => hj h.symm
        simp [assignedTo, List.filter_cons, hj, hj2]

theorem vecAdd_length (a b : List α) (h : a.length = b.length) :
    (vecAdd a b).length = a.length := by
  simp [vecAdd, h]

theorem vecAdd_getD (a b : List α) (i : Nat) (h : a.length = b.length) :
    (vecAdd a b).getD i 0 = a.getD i 0 + b.getD i 0 := by
  induction a generalizing b i with
  | nil =>
    cases b with
    | nil => simp [vecAdd]
    | cons y ys => simp at h
  | cons x xs ih =>
    cases b with
    | nil => simp at h
    | cons y ys =>
      cases i with
      | zero => simp [vecAdd]
      | succ i =>
        have := ih ys i (by simpa using h)
        simpa [vecAdd] using this

theorem foldl_vecAdd_length (D : Nat) : ∀ (qs : List (List α)) (v : List α),
    v.length = D → (∀ q ∈ qs, q.length = D) → (qs.foldl vecAdd v).length = D
  | [], v, hv, _ => by simpa using hv
  | q :: qs, v, hv, hq => by
    have hq0 : q.length = D := hq q (List.mem_cons_self _ _)
    simp only [List.foldl_cons]
    exact foldl_vecAdd_length D qs (vecAdd v q)
      (by rw [vecAdd_length v q (by rw [hv, hq0]), hv])
      (fun q2 h2 => hq q2 (List.mem_cons_of_mem _ h2))

theorem foldl_vecAdd_getD (D : Nat) (i : Nat) : ∀ (qs : List (List α)) (v : List α),
    v.length = D → (∀ q ∈ qs, q.length = D) →
    (qs.foldl vecAdd v).getD i 0 = v.getD i 0 + (qs.map (fun q => q.getD i 0)).sum
  | [], v, _, _ => by simp
  | q :: qs, v, hv, hq => by
    have hq0 : q.length = D := hq q (List.mem_cons_self _ _)
    simp only [List.foldl_cons, List.map_cons, List.sum_cons]
    rw [foldl_vecAdd_getD D i qs (vecAdd v q)
      (by rw [vecAdd_length v q (by rw [hv, hq0]), hv])
      (fun q2 h2 => hq q2 (List.mem_cons_of_mem _ h2)),
      vecAdd_getD v q i (by rw [hv, hq0]), add_assoc]

theorem normalize_getD (newCols : List (List α)) (counts : List Nat) (j : Nat)
    (hj : j < newCols.length) (hlen : newCols.length = counts.length) :
    (normalize newCols counts).getD j [] =
      normalizeCol (newCols.getD j []) (counts.getD j 0) := by
  induction newCols generalizing counts j with
  | nil => simp at hj
  | cons c cs ih =>
    cases counts with
    | nil => simp at hlen
    | cons n ns =>
      cases j with
      | zero => simp [normalize]
      | succ j =>
        have := ih ns j (by simpa using hj) (by simpa using hlen)
        simpa [normalize] using this

/-- Shape of a returning `Iterate`: the accumulated columns and counts, then the
normalised columns, the wrapped counter and the distortion. -/
theorem Iterate_eq (sqrt : α → α) (self : NaiveKMeans α) (centroids buf : Mat α)
    (cnt : List Nat) (newCols : List (List α)) (counts : List Nat)
    (h : assignPoints self.metric centroids self.dataset.cols
      (Mat.zeros centroids.n_rows centroids.n_cols : Mat α).cols
      (List.replicate centroids.n_cols 0) = some (newCols, counts)) :
    self.Iterate sqrt centroids buf cnt = some
      { self := { self with distanceCalculations :=
          (self.distanceCalculations
            + (centroids.n_cols * self.dataset.n_cols) % 2 ^ SIZE_BITS) % 2 ^ SIZE_BITS }
        newCentroids := ⟨centroids.n_rows, normalize newCols counts⟩
        counts := counts
        distortion := sqrt (cNormLoop self.metric centroids.cols
          (normalize newCols counts) 0) } := by
  simp only [NaiveKMeans.Iterate, h]
  rfl

theorem modifyAt_succ_sum : ∀ (j : Nat) (l : List Nat), j < l.length →
    (modifyAt (· + 1) j l).sum = l.sum + 1
  | _, [], h => by simp at h
  | 0, x :: xs, _ => by simp [modifyAt]; omega
  | j + 1, x :: xs, h => by
    have := modifyAt_succ_sum j xs (by simpa using h)
    simp [modifyAt, this]; omega

theorem assignPoints_sum (metric : List α → List α → α) (centroids : Mat α) :
    ∀ (ps : List (List α)) (cols : List (List α)) (counts : List Nat)
      (newCols : List (List α)) (newCounts : List Nat),
      counts.length = centroids.n_cols →
      assignPoints metric centroids ps cols counts = some (newCols, newCounts) →
      newCounts.sum = counts.sum + ps.length ∧ newCounts.length = centroids.n_cols
  | [], cols, counts, newCols, newCounts, hn, h => by
    simp only [assignPoints, Option.some.injEq, Prod.mk.injEq] at h
    rw [← h.2]; simp [hn]
  | p :: rest, cols, counts, newCols, newCounts, hn, h => by
    simp only [assignPoints] at h
    split at h
    · exact absurd h (by simp)
    · rename_i hne
      have hcc : closestCluster metric centroids p < counts.length := by
        have hK : 1 ≤ centroids.n_cols := by
          rcases Nat.eq_zero_or_pos centroids.n_cols with h0 | h0
          · exfalso; apply hne
            have hnil : centroids.cols = [] := List.eq_nil_of_length_eq_zero h0
            simp [closestCluster, hnil, scanCentroids, Mat.n_cols]
          · exact h0
        rw [hn]; exact (closestCluster_isNearest metric centroids p hK).1
      have := assignPoints_sum metric centroids rest _ _ newCols newCounts
        (by rw [modifyAt_length, hn]) h
      rw [this.1, modifyAt_succ_sum _ _ hcc]
      refine ⟨?_, this.2⟩
      simp; omega

/-- Every returning `Iterate` is built from a returning accumulation loop. -/
theorem Iterate_some (sqrt : α → α) (self : NaiveKMeans α) (centroids buf : Mat α)
    (cnt : List Nat) (r : IterateResult α)
    (h : self.Iterate sqrt centroids buf cnt = some r) :
    ∃ newCols counts,
      assignPoints self.metric centroids self.dataset.cols
        (Mat.zeros centroids.n_rows centroids.n_cols : Mat α).cols
        (List.replicate centroids.n_cols 0) = some (newCols, counts) ∧
      r = { self := { self with distanceCalculations :=
              (self.distanceCalculations
                + (centroids.n_cols * self.dataset.n_cols) % 2 ^ SIZE_BITS) % 2 ^ SIZE_BITS }
            newCentroids := ⟨centroids.n_rows, normalize newCols counts⟩
            counts := counts
            distortion := sqrt (cNormLoop self.metric centroids.cols
              (normalize newCols counts) 0) } := by
  cases hA : assignPoints self.metric centroids self.dataset.cols
      (Mat.zeros centroids.n_rows centroids.n_cols : Mat α).cols
      (List.replicate centroids.n_cols 0) with
  | none => simp [NaiveKMeans.Iterate, hA] at h
  | some res =>
    obtain ⟨newCols, counts⟩ := res
    refine ⟨newCols, counts, rfl, ?_⟩
    rw [Iterate_eq sqrt self centroids buf cnt newCols counts hA] at h
    exact (Option.some.inj h).symm

/-- With at least one centroid `Iterate` returns, and its accumulated columns and
counts are the per-cluster sums and sizes of the assigned points. -/
theorem Iterate_spec (sqrt : α → α) (self : NaiveKMeans α) (centroids buf : Mat α)
    (cnt : List Nat) (hK : 1 ≤ centroids.n_cols) :
    ∃ newCols counts,
      self.Iterate sqrt centroids buf cnt = some
        { self := { self with distanceCalculations :=
            (self.distanceCalculations
              + (centroids.n_cols * self.dataset.n_cols) % 2 ^ SIZE_BITS) % 2 ^ SIZE_BITS }
          newCentroids := ⟨centroids.n_rows, normalize newCols counts⟩
          counts := counts
          distortion := sqrt (cNormLoop self.metric centroids.cols
            (normalize newCols counts) 0) } ∧
      newCols.length = centroids.n_cols ∧ counts.length = centroids.n_cols ∧
      ∀ j, j < centroids.n_cols →
        newCols.getD j [] =
          (assignedTo self.metric centroids j self.dataset.cols).foldl vecAdd
            (List.replicate centroids.n_rows 0) ∧
        counts.getD j 0 = (assignedTo self.metric centroids j self.dataset.cols).length := by
  obtain ⟨newCols, counts, hA, hl1, hl2, hall⟩ :=
    assignPoints_spec self.metric centroids hK self.dataset.cols
      (Mat.zeros centroids.n_rows centroids.n_cols : Mat α).cols
      (List.replicate centroids.n_cols 0) (by simp [Mat.zeros]) (by simp)
  refine ⟨newCols, counts, Iterate_eq sqrt self centroids buf cnt newCols counts hA,
    hl1, hl2, ?_⟩
  intro j hj
  obtain ⟨h1, h2⟩ := hall j
  refine ⟨?_, ?_⟩
  · rw [h1]
    simp [Mat.zeros, List.getD_eq_getElem?_getD, List.getElem?_replicate, hj]
  · rw [h2]
    simp [List.getD_eq_getElem?_getD, List.getElem?_replicate, hj]

theorem assignedTo_eq_nearestPoints (metric : List α → List α → α) (centroids : Mat α)
    (hK : 1 ≤ centroids.n_cols) (j : Nat) (ps : List (List α)) :
    assignedTo metric centroids j ps = nearestPoints metric centroids.cols j ps := by
  unfold assignedTo nearestPoints
  apply List.filter_congr
  intro p _
  simp only [closestCluster_eq_iff metric centroids p hK j]

theorem normalizeCol_getD (col : List α) (count i : Nat) (hc : count ≠ 0) :
    (normalizeCol col count).getD i 0 = col.getD i 0 / (count : α) := by
  simp only [normalizeCol, if_pos hc, List.getD_eq_getElem?_getD, List.getElem?_map]
  cases col[i]? <;> simp


/-- C1: with at least one centroid and a dataset of the centroids' dimension, `Iterate`
returns, and every cluster `j` with `counts[j] > 0` has as `newCentroids[j]` a column
of that dimension whose every coordinate is the arithmetic mean of that coordinate over
exactly the dataset points whose nearest centroid (lowest index at minimum distance)
is `j`. -/
theorem C1_newCentroid_is_mean_of_nearest_points (sqrt : α → α) (self : NaiveKMeans α)
    (centroids buf : Mat α) (cnt : List Nat) (hK : 1 ≤ centroids.n_cols)
    (hds : self.dataset.WF) (hdim : self.dataset.n_rows = centroids.n_rows) :
    ∃ r, self.Iterate sqrt centroids buf cnt = some r ∧
      ∀ j, j < centroids.n_cols → 0 < r.counts.getD j 0 →
        (r.newCentroids.cols.getD j []).length = centroids.n_rows ∧
        ∀ i, i < centroids.n_rows →
          (r.newCentroids.cols.getD j []).getD i 0 =
            meanCoord (nearestPoints self.metric centroids.cols j self.dataset.cols) i := by
  obtain ⟨newCols, counts, hI, hl1, hl2, hall⟩ := Iterate_spec sqrt self centroids buf cnt hK
  refine ⟨_, hI, ?_⟩
  intro j hj hpos
  obtain ⟨h1, h2⟩ := hall j hj
  rw [assignedTo_eq_nearestPoints _ _ hK] at h1 h2
  have hq : ∀ q ∈ nearestPoints self.metric centroids.cols j self.dataset.cols,
      q.length = centroids.n_rows := by
    intro q hq
    rw [← hdim]
    exact hds q (List.mem_of_mem_filter hq)
  have hne : counts.getD j 0 ≠ 0 := Nat.pos_iff_ne_zero.mp hpos
  have hnorm : (normalize newCols counts).getD j [] =
      normalizeCol (newCols.getD j []) (counts.getD j 0) :=
    normalize_getD newCols counts j (by rw [hl1]; exact hj) (by rw [hl1, hl2])
  have hlen := foldl_vecAdd_length centroids.n_rows
    (nearestPoints self.metric centroids.cols j self.dataset.cols)
    (List.replicate centroids.n_rows (0 : α)) (by simp) hq
  refine ⟨?_, ?_⟩
  · show ((normalize newCols counts).getD j []).length = centroids.n_rows
    rw [hnorm, h1]
    simp only [normalizeCol, if_pos hne, List.length_map, hlen]
  · intro i hi
    show ((normalize newCols counts).getD j []).getD i 0 = _
    rw [hnorm, normalizeCol_getD _ _ _ hne, h1, h2,
      foldl_vecAdd_getD centroids.n_rows i _ _ (by simp) hq]
    simp [meanCoord, List.getD_eq_getElem?_getD, List.getElem?_replicate, hi]

theorem closestCluster_two (metric : List α → List α → α) (D : Nat) (c0 c1 p : List α) :
    closestCluster metric ⟨D, [c0, c1]⟩ p = if metric p c1 < metric p c0 then 1 else 0 := by
  simp only [closestCluster, scanCentroids, MinDist.lt, if_true, decide_eq_true_eq]
  split <;> rfl

theorem euclidean_closest_zero (D : Nat) (c0 c1 p : List ℝ)
    (h : sqDist p c0 ≤ sqDist p c1) :
    closestCluster (euclidean Real.sqrt) ⟨D, [c0, c1]⟩ p = 0 := by
  rw [closestCluster_two, if_neg]
  exact not_lt.mpr (Real.sqrt_le_sqrt h)

theorem euclidean_closest_one (D : Nat) (c0 c1 p : List ℝ)
    (h0 : 0 ≤ sqDist p c1) (h : sqDist p c1 < sqDist p c0) :
    closestCluster (euclidean Real.sqrt) ⟨D, [c0, c1]⟩ p = 1 := by
  rw [closestCluster_two, if_pos]
  exact Real.sqrt_lt_sqrt h0 h

theorem C1_witness :
    1 ≤ scenarioCentroids.n_cols ∧ scenarioKernel.dataset.WF ∧
    scenarioKernel.dataset.n_rows = scenarioCentroids.n_rows ∧
    ∃ r, scenarioKernel.Iterate id scenarioCentroids ⟨0, []⟩ [] = some r ∧
      ∀ j, j < scenarioCentroids.n_cols → 0 < r.counts.getD j 0 →
        (r.newCentroids.cols.getD j []).length = scenarioCentroids.n_rows ∧
        ∀ i, i < scenarioCentroids.n_rows →
          (r.newCentroids.cols.getD j []).getD i 0 =
            meanCoord (nearestPoints scenarioKernel.metric scenarioCentroids.cols j
              scenarioKernel.dataset.cols) i :=
  have h1 : 1 ≤ scenarioCentroids.n_cols := by decide
  have h2 : scenarioKernel.dataset.WF := by
    simp [Mat.WF, scenarioKernel, NaiveKMeans.new, scenarioData]
  ⟨h1, h2, rfl,
    C1_newCentroid_is_mean_of_nearest_points id scenarioKernel scenarioCentroids ⟨0, []⟩ []
      h1 h2 rfl⟩

theorem filter_ne_zero_sum : ∀ (l : List Nat), (l.filter (fun n => decide (n ≠ 0))).sum = l.sum
  | [] => rfl
  | n :: l => by
    have ih := filter_ne_zero_sum l
    by_cases h : n = 0 <;> simp_all [List.filter_cons]

/-- C2: with at least one centroid `Iterate` returns, `counts` has one entry per
centroid and its entries sum to the number `N` of dataset points; the non-zero entries
alone (empty clusters left out) sum to `N` as well. -/
theorem C2_counts_sum_to_N (sqrt : α → α) (self : NaiveKMeans α)
    (centroids buf : Mat α) (cnt : List Nat) (hK : 1 ≤ centroids.n_cols) :
    ∃ r, self.Iterate sqrt centroids buf cnt = some r ∧
      r.counts.length = centroids.n_cols ∧
      r.counts.sum = self.dataset.n_cols ∧
      (r.counts.filter (fun n => decide (n ≠ 0))).sum = self.dataset.n_cols := by
  obtain ⟨newCols, counts, hI, _, _, _⟩ := Iterate_spec sqrt self centroids buf cnt hK
  obtain ⟨newCols2, counts2, hA, hr⟩ := Iterate_some sqrt self centroids buf cnt _ hI
  have hs := assignPoints_sum self.metric centroids self.dataset.cols _ _ newCols2 counts2
    (by simp) hA
  have hc : counts = counts2 := congrArg IterateResult.counts hr
  subst hc
  refine ⟨_, hI, hs.2, ?_, ?_⟩
  · show counts.sum = _
    rw [hs.1]; simp [Mat.n_cols]
  · show (counts.filter _).sum = _
    rw [filter_ne_zero_sum, hs.1]; simp [Mat.n_cols]

theorem C2_witness :
    1 ≤ scenarioCentroids.n_cols ∧
    ∃ r, scenarioKernel.Iterate id scenarioCentroids ⟨0, []⟩ [] = some r ∧
      r.counts.length = scenarioCentroids.n_cols ∧
      r.counts.sum = scenarioKernel.dataset.n_cols ∧
      (r.counts.filter (fun n => decide (n ≠ 0))).sum = scenarioKernel.dataset.n_cols :=
  ⟨by decide, C2_counts_sum_to_N id scenarioKernel scenarioCentroids ⟨0, []⟩ [] (by decide)⟩

theorem DBL_MAX_pos : (0 : α) < DBL_MAX := by
  unfold DBL_MAX
  apply mul_pos
  · have : (1 : α) < 2 ^ 53 := one_lt_pow₀ one_lt_two (by norm_num)
    linarith
  · positivity

theorem empty_cluster_sentinel (sqrt : α → α) (self : NaiveKMeans α)
    (centroids buf : Mat α) (cnt : List Nat) (r : IterateResult α)
    (h : self.Iterate sqrt centroids buf cnt = some r) (j : Nat)
    (hj : j < centroids.n_cols) (h0 : r.counts.getD j 0 = 0) :
    r.newCentroids.cols.getD j [] = List.replicate centroids.n_rows DBL_MAX := by
  have hK : 1 ≤ centroids.n_cols := by omega
  obtain ⟨newCols, counts, hI, hl1, hl2, hall⟩ := Iterate_spec sqrt self centroids buf cnt hK
  rw [hI] at h
  have hr := (Option.some.inj h).symm
  subst hr
  obtain ⟨h1, h2⟩ := hall j hj
  have hc : counts.getD j 0 = 0 := h0
  show (normalize newCols counts).getD j [] = _
  rw [normalize_getD newCols counts j (by rw [hl1]; exact hj) (by rw [hl1, hl2]), hc, h1]
  have hnil : assignedTo self.metric centroids j self.dataset.cols = [] :=
    List.eq_nil_of_length_eq_zero (by rw [← h2, hc])
  rw [hnil]
  simp [normalizeCol]

theorem sentinel_scenario (buf : Mat ℝ) (cnt : List Nat) :
    NaiveKMeans.Iterate Real.sqrt
      (NaiveKMeans.new ⟨2, [[0, 0], [0, 1], [0, 2]]⟩ (euclidean Real.sqrt))
      ⟨2, [[0, 0], [100, 100]]⟩ buf cnt
      = some
        { self := { dataset := ⟨2, [[0, 0], [0, 1], [0, 2]]⟩
                    metric := euclidean Real.sqrt
                    distanceCalculations := 6 }
          newCentroids := ⟨2, [[0, 1], [DBL_MAX, DBL_MAX]]⟩
          counts := [3, 0]
          distortion := Real.sqrt (cNormLoop (euclidean Real.sqrt) [[0, 0], [100, 100]]
            [[0, 1], [DBL_MAX, DBL_MAX]] 0) } := by
  have h1 : closestCluster (euclidean Real.sqrt) ⟨2, [[0, 0], [100, 100]]⟩ [0, 0] = 0 :=
    euclidean_closest_zero _ _ _ _ (by norm_num [sqDist])
  have h2 : closestCluster (euclidean Real.sqrt) ⟨2, [[0, 0], [100, 100]]⟩ [0, 1] = 0 :=
    euclidean_closest_zero _ _ _ _ (by norm_num [sqDist])
  have h3 : closestCluster (euclidean Real.sqrt) ⟨2, [[0, 0], [100, 100]]⟩ [0, 2] = 0 :=
    euclidean_closest_zero _ _ _ _ (by norm_num [sqDist])
  have hA : assignPoints (euclidean Real.sqrt) ⟨2, [[0, 0], [100, 100]]⟩
      [[0, 0], [0, 1], [0, 2]] (Mat.zeros 2 2 : Mat ℝ).cols (List.replicate 2 0)
      = some ([[0, 3], [0, 0]], [3, 0]) := by
    simp only [assignPoints, h1, h2, h3, modifyAt, vecAdd, Mat.zeros, Mat.n_cols,
      List.replicate, List.zipWith, List.length]
    norm_num
  rw [Iterate_eq Real.sqrt _ _ buf cnt _ _ hA]
  simp [normalize, normalizeCol, NaiveKMeans.new, Mat.n_cols, SIZE_BITS]

/-- C3: after a returning `Iterate`, every cluster `j` with `counts[j] == 0` has
`newCentroids[j]` equal to `DBL_MAX` in each of its `n_rows` coordinates, and `DBL_MAX`
is not zero.  In the scenario with points (0,0), (0,1), (0,2), centroids (0,0),
(100,100) and the Euclidean metric, `counts` is {3,0} and `newCentroids[1]` is
(DBL_MAX, DBL_MAX), which is neither the zero column nor the old centroid. -/
theorem C3_empty_cluster_is_DBL_MAX (sqrt : α → α) (self : NaiveKMeans α)
    (centroids buf : Mat α) (cnt : List Nat) (r : IterateResult α)
    (h : self.Iterate sqrt centroids buf cnt = some r) :
    (∀ j, j < centroids.n_cols → r.counts.getD j 0 = 0 →
      r.newCentroids.cols.getD j [] = List.replicate centroids.n_rows DBL_MAX) ∧
    (DBL_MAX : α) ≠ 0 ∧
    (∀ (buf0 : Mat ℝ) (cnt0 : List Nat), ∃ r0,
      NaiveKMeans.Iterate Real.sqrt
        (NaiveKMeans.new ⟨2, [[0, 0], [0, 1], [0, 2]]⟩ (euclidean Real.sqrt))
        ⟨2, [[0, 0], [100, 100]]⟩ buf0 cnt0 = some r0 ∧
      r0.counts = [3, 0] ∧
      r0.newCentroids.cols.getD 1 [] = [DBL_MAX, DBL_MAX] ∧
      r0.newCentroids.cols.getD 1 [] ≠ [0, 0] ∧
      r0.newCentroids.cols.getD 1 [] ≠ [100, 100]) := by
  refine ⟨fun j hj h0 => empty_cluster_sentinel sqrt self centroids buf cnt r h j hj h0,
    ne_of_gt DBL_MAX_pos, ?_⟩
  intro buf0 cnt0
  refine ⟨_, sentinel_scenario buf0 cnt0, rfl, rfl, ?_, ?_⟩
  · have : (DBL_MAX : ℝ) ≠ 0 := ne_of_gt DBL_MAX_pos
    simp [this]
  · have : (DBL_MAX : ℝ) ≠ 100 := by
      unfold DBL_MAX; norm_num
    simp [this]

theorem C3_witness :
    ∃ r, scenarioKernel.Iterate id ⟨2, [[0, 0], [0, 0]]⟩ ⟨0, []⟩ [] = some r ∧
      r.counts.getD 1 0 = 0 ∧
      r.newCentroids.cols.getD 1 [] = List.replicate 2 DBL_MAX := by
  have hA : assignPoints scenarioKernel.metric ⟨2, [[0, 0], [0, 0]]⟩
      scenarioKernel.dataset.cols (Mat.zeros 2 2 : Mat ℚ).cols (List.replicate 2 0)
      = some ([[20, 24], [0, 0]], [4, 0]) := by
    simp only [assignPoints, closestCluster_two, scenarioKernel, scenarioData,
      NaiveKMeans.new, lt_irrefl, if_false, modifyAt, vecAdd, Mat.zeros, Mat.n_cols,
      List.replicate, List.zipWith, List.length]
    norm_num
  have hI := Iterate_eq id scenarioKernel ⟨2, [[0, 0], [0, 0]]⟩ ⟨0, []⟩ [] _ _ hA
  exact ⟨_, hI, rfl,
    (C3_empty_cluster_is_DBL_MAX id scenarioKernel ⟨2, [[0, 0], [0, 0]]⟩ ⟨0, []⟩ [] _ hI).1
      1 (by decide) rfl⟩

/-- C4: with at least one centroid, the index chosen by the scan is a valid centroid
index at minimum distance (no centroid is strictly closer) and every lower-indexed
centroid is strictly farther, so it is the smallest index at minimum distance; with two
centroids equidistant from the point the scan chooses centroid 0. -/
theorem C4_scan_picks_lowest_index_at_minimum (metric : List α → List α → α)
    (centroids : Mat α) (p : List α) (hK : 1 ≤ centroids.n_cols) :
    closestCluster metric centroids p < centroids.n_cols ∧
    (∀ i, i < centroids.n_cols →
      ¬ distTo metric centroids.cols p i
          < distTo metric centroids.cols p (closestCluster metric centroids p)) ∧
    (∀ i, i < closestCluster metric centroids p →
      distTo metric centroids.cols p (closestCluster metric centroids p)
        < distTo metric centroids.cols p i) ∧
    (∀ j, j < centroids.n_cols →
      (∀ i, i < centroids.n_cols →
        distTo metric centroids.cols p j ≤ distTo metric centroids.cols p i) →
      closestCluster metric centroids p ≤ j) ∧
    (centroids.n_cols = 2 →
      distTo metric centroids.cols p 0 = distTo metric centroids.cols p 1 →
      closestCluster metric centroids p = 0) := by
  obtain ⟨h1, h2, h3⟩ := closestCluster_isNearest metric centroids p hK
  refine ⟨h1, fun i hi => not_lt.mpr (h2 i hi), h3, ?_, ?_⟩
  · intro j hj hmin
    by_contra hlt
    exact absurd (hmin _ h1) (not_le.mpr (h3 j (not_le.mp hlt)))
  · intro hK2 heq
    have hlt : closestCluster metric centroids p < 2 := hK2 ▸ h1
    rcases Nat.eq_zero_or_pos (closestCluster metric centroids p) with h0 | hpos
    · exact h0
    · have hc1 : closestCluster metric centroids p = 1 := by omega
      have := h3 0 hpos
      rw [hc1, heq] at this
      exact absurd this (lt_irrefl _)

theorem C4_witness :
    1 ≤ (⟨1, [[0], [2]]⟩ : Mat ℚ).n_cols ∧
    closestCluster sqDist (⟨1, [[0], [2]]⟩ : Mat ℚ) [1] = 0 :=
  ⟨by decide,
    (C4_scan_picks_lowest_index_at_minimum sqDist (⟨1, [[0], [2]]⟩ : Mat ℚ) [1]
      (by decide)).2.2.2.2 rfl (by norm_num [distTo, sqDist])⟩

theorem Iterate_self (sqrt : α → α) (self : NaiveKMeans α) (centroids buf : Mat α)
    (cnt : List Nat) (r : IterateResult α)
    (h : self.Iterate sqrt centroids buf cnt = some r) :
    r.self.dataset = self.dataset ∧ r.self.metric = self.metric ∧
    r.self.distanceCalculations =
      (self.distanceCalculations + centroids.n_cols * self.dataset.n_cols) % 2 ^ SIZE_BITS := by
  obtain ⟨newCols, counts, _, hr⟩ := Iterate_some sqrt self centroids buf cnt r h
  subst hr
  exact ⟨rfl, rfl, Nat.add_mod_mod _ _ _⟩

theorem iterateCalls_counter (sqrt : α → α) :
    ∀ (calls : List (Mat α)) (self : NaiveKMeans α) (buf : Mat α) (cnt : List Nat),
      self.distanceCalculations < 2 ^ SIZE_BITS → (∀ c ∈ calls, 1 ≤ c.n_cols) →
      ∃ k, iterateCalls sqrt self calls buf cnt = some k ∧
        k.dataset = self.dataset ∧
        k.distanceCalculations =
          (self.distanceCalculations
            + self.dataset.n_cols * (calls.map Mat.n_cols).sum) % 2 ^ SIZE_BITS
  | [], self, buf, cnt, hlt, _ => by
    refine ⟨self, rfl, rfl, ?_⟩
    simp [Nat.mod_eq_of_lt hlt]
  | c :: rest, self, buf, cnt, _, hK => by
    obtain ⟨newCols, counts, hI, _⟩ :=
      Iterate_spec sqrt self c buf cnt (hK c (List.mem_cons_self _ _))
    obtain ⟨hd, _, hc⟩ := Iterate_self sqrt self c buf cnt _ hI
    obtain ⟨k, hk, hkd, hkc⟩ := iterateCalls_counter sqrt rest _
      ⟨c.n_rows, normalize newCols counts⟩ counts
      (by rw [hc]; exact Nat.mod_lt _ (by simp [SIZE_BITS]))
      (fun c2 h2 => hK c2 (List.mem_cons_of_mem _ h2))
    refine ⟨k, ?_, hkd.trans hd, ?_⟩
    · simp only [iterateCalls, hI]
      exact hk
    · rw [hkc, hc, hd]
      simp only [List.map_cons, List.sum_cons, Nat.mod_add_mod]
      congr 1
      ring

/-- C5 (as amended): a fresh kernel has counter 0; a returning call of `Iterate` with
`K` centroids on the kernel's `N` points leaves dataset and metric as they were and
adds `K * N` to the counter modulo `2 ^ 64`, which is exactly `K * N` more whenever
that sum is below `2 ^ 64`; calls with `K_1..K_m >= 1` centroids on a fresh kernel all
return and leave the counter at `N * (K_1 + ... + K_m)` modulo `2 ^ 64`, exactly that
number whenever it is below `2 ^ 64`. -/
theorem C5_counter_adds_KN_modulo_size (sqrt : α → α) (dataset : Mat α)
    (metric : List α → List α → α) :
    (NaiveKMeans.new dataset metric).distanceCalculations = 0 ∧
    (∀ (self : NaiveKMeans α) (centroids buf : Mat α) (cnt : List Nat) (r : IterateResult α),
      self.Iterate sqrt centroids buf cnt = some r →
      r.self.dataset = self.dataset ∧ r.self.metric = self.metric ∧
      r.self.distanceCalculations =
        (self.distanceCalculations + centroids.n_cols * self.dataset.n_cols) % 2 ^ 64 ∧
      (self.distanceCalculations + centroids.n_cols * self.dataset.n_cols < 2 ^ 64 →
        r.self.distanceCalculations =
          self.distanceCalculations + centroids.n_cols * self.dataset.n_cols)) ∧
    (∀ (calls : List (Mat α)) (buf : Mat α) (cnt : List Nat),
      (∀ c ∈ calls, 1 ≤ c.n_cols) →
      ∃ k, iterateCalls sqrt (NaiveKMeans.new dataset metric) calls buf cnt = some k ∧
        k.distanceCalculations = (dataset.n_cols * (calls.map Mat.n_cols).sum) % 2 ^ 64 ∧
        (dataset.n_cols * (calls.map Mat.n_cols).sum < 2 ^ 64 →
          k.distanceCalculations = dataset.n_cols * (calls.map Mat.n_cols).sum)) := by
  refine ⟨rfl, ?_, ?_⟩
  · intro self centroids buf cnt r h
    obtain ⟨h1, h2, h3⟩ := Iterate_self sqrt self centroids buf cnt r h
    refine ⟨h1, h2, h3, fun hlt => ?_⟩
    rw [h3]
    exact Nat.mod_eq_of_lt hlt
  · intro calls buf cnt hK
    obtain ⟨k, hk, _, hc⟩ := iterateCalls_counter sqrt calls
      (NaiveKMeans.new dataset metric) buf cnt (by simp [NaiveKMeans.new]) hK
    have hc2 : k.distanceCalculations
        = (dataset.n_cols * (calls.map Mat.n_cols).sum) % 2 ^ 64 := by
      rw [hc]
      simp [NaiveKMeans.new, SIZE_BITS]
    refine ⟨k, hk, hc2, fun hlt => ?_⟩
    rw [hc2]
    exact Nat.mod_eq_of_lt hlt

theorem C5_witness :
    (∀ c ∈ [scenarioCentroids, scenarioCentroids], 1 ≤ c.n_cols) ∧
    scenarioData.n_cols * ([scenarioCentroids, scenarioCentroids].map Mat.n_cols).sum
      < 2 ^ 64 ∧
    ∃ k, iterateCalls id scenarioKernel [scenarioCentroids, scenarioCentroids] ⟨0, []⟩ []
        = some k ∧ k.distanceCalculations = 16 := by
  have hK : ∀ c ∈ [scenarioCentroids, scenarioCentroids], 1 ≤ c.n_cols := by decide
  have hlt : scenarioData.n_cols
      * ([scenarioCentroids, scenarioCentroids].map Mat.n_cols).sum < 2 ^ 64 := by decide
  obtain ⟨k, hk, _, hex⟩ :=
    (C5_counter_adds_KN_modulo_size id scenarioData sqDist).2.2
      [scenarioCentroids, scenarioCentroids] ⟨0, []⟩ [] hK
  exact ⟨hK, hlt, k, hk, hex hlt⟩

/-- C5 fails as stated: with `2 ^ 32` points and `2 ^ 32` centroids the call returns
with the counter of the fresh kernel still `0`, not `2 ^ 32 * 2 ^ 32`. -/
theorem C5_counter_wraps :
    ∃ r, (NaiveKMeans.new bigData sqDist).Iterate id bigData ⟨0, []⟩ [] = some r ∧
      r.self.distanceCalculations = 0 ∧
      r.self.distanceCalculations
        ≠ (NaiveKMeans.new bigData sqDist).distanceCalculations
          + bigData.n_cols * bigData.n_cols := by
  have hn : bigData.n_cols = 2 ^ 32 := by
    simp only [bigData, Mat.n_cols, List.length_replicate]
  obtain ⟨r, hI⟩ : ∃ r, (NaiveKMeans.new bigData sqDist).Iterate id bigData ⟨0, []⟩ []
      = some r := by
    obtain ⟨newCols, counts, hI, _⟩ :=
      Iterate_spec id (NaiveKMeans.new bigData sqDist) bigData ⟨0, []⟩ []
        (by rw [hn]; norm_num)
    exact ⟨_, hI⟩
  obtain ⟨_, _, hc⟩ := Iterate_self id _ bigData ⟨0, []⟩ [] r hI
  have h0 : (NaiveKMeans.new bigData sqDist).distanceCalculations = 0 := rfl
  have hd : (NaiveKMeans.new bigData sqDist).dataset.n_cols = 2 ^ 32 := hn
  rw [h0, hd, hn] at hc
  refine ⟨r, hI, ?_, ?_⟩
  · rw [hc]; norm_num [SIZE_BITS]
  · rw [hc, h0, hn]; norm_num [SIZE_BITS]

theorem assignPoints_length (metric : List α → List α → α) (centroids : Mat α) :
    ∀ (ps : List (List α)) (cols : List (List α)) (counts : List Nat)
      (newCols : List (List α)) (newCounts : List Nat),
      assignPoints metric centroids ps cols counts = some (newCols, newCounts) →
      newCols.length = cols.length ∧ newCounts.length = counts.length
  | [], cols, counts, newCols, newCounts, h => by
    simp only [assignPoints, Option.some.injEq, Prod.mk.injEq] at h
    rw [← h.1, ← h.2]; exact ⟨rfl, rfl⟩
  | p :: rest, cols, counts, newCols, newCounts, h => by
    simp only [assignPoints] at h
    split at h
    · exact absurd h (by simp)
    · have := assignPoints_length metric centroids rest _ _ newCols newCounts h
      simpa [modifyAt_length] using this

theorem Iterate_shape (sqrt : α → α) (self : NaiveKMeans α) (centroids buf : Mat α)
    (cnt : List Nat) (r : IterateResult α)
    (h : self.Iterate sqrt centroids buf cnt = some r) :
    r.newCentroids.n_rows = centroids.n_rows ∧
    r.newCentroids.cols.length = centroids.n_cols ∧
    r.counts.length = centroids.n_cols ∧
    r.distortion = sqrt (cNormLoop self.metric centroids.cols r.newCentroids.cols 0) := by
  obtain ⟨newCols, counts, hA, hr⟩ := Iterate_some sqrt self centroids buf cnt r h
  have hl := assignPoints_length self.metric centroids _ _ _ newCols counts hA
  subst hr
  refine ⟨rfl, ?_, ?_, rfl⟩
  · show (normalize newCols counts).length = _
    simp [normalize, hl.1, hl.2, Mat.zeros]
  · show counts.length = _
    simp [hl.2]

theorem cNormLoop_eq (metric : List α → List α → α) :
    ∀ (cs ns : List (List α)) (cNorm : α),
      cNormLoop metric cs ns cNorm
        = cNorm + (List.zipWith (fun c n => (metric c n ^ 2) ^ 2) cs ns).sum
  | [], _, cNorm => by simp [cNormLoop]
  | _ :: _, [], cNorm => by simp [cNormLoop]
  | c :: cs, n :: ns, cNorm => by
    simp only [cNormLoop, List.zipWith_cons_cons, List.sum_cons]
    rw [cNormLoop_eq metric cs ns, add_assoc]

theorem zipWith_sum_range {β : Type} (f : β → β → α) (d : β) :
    ∀ (as bs : List β), as.length = bs.length →
      (List.zipWith f as bs).sum
        = ((List.range as.length).map (fun j => f (as.getD j d) (bs.getD j d))).sum
  | [], _, _ => by simp
  | a :: as, [], h => by simp at h
  | a :: as, b :: bs, h => by
    have ih := zipWith_sum_range f d as bs (by simpa using h)
    simp only [List.zipWith_cons_cons, List.sum_cons, List.length_cons, List.range_succ_eq_map,
      List.map_cons, List.map_map, ih]
    rfl

/-- The returned value as `sqrt` of a sum over the centroid indices. -/
theorem distortion_formula (sqrt : α → α)
    (self : NaiveKMeans α) (centroids buf : Mat α) (cnt : List Nat) (r : IterateResult α)
    (h : self.Iterate sqrt centroids buf cnt = some r) :
    r.distortion = sqrt (((List.range centroids.n_cols).map (fun j =>
      (self.metric (centroids.cols.getD j []) (r.newCentroids.cols.getD j []) ^ 2) ^ 2)).sum) := by
  obtain ⟨_, hl, _, hd⟩ := Iterate_shape sqrt self centroids buf cnt r h
  rw [hd, cNormLoop_eq, zero_add,
    zipWith_sum_range (fun c n => (self.metric c n ^ 2) ^ 2) [] centroids.cols
      r.newCentroids.cols (by rw [hl]; rfl)]
  rfl

/-- C6: the value returned by `Iterate` is `sqrt` of the sum over all centroid indices
`j < K` of the twice-squared distance `(d_j ^ 2) ^ 2 = d_j ^ 4`, where
`d_j = metric(centroids[j], newCentroids[j])` is taken on the old centroid and the new
(normalised or sentinel) column, of which there are exactly `K`. -/
theorem C6_distortion_is_sqrt_of_sum_of_fourth_powers (sqrt : α → α)
    (self : NaiveKMeans α) (centroids buf : Mat α) (cnt : List Nat) (r : IterateResult α)
    (h : self.Iterate sqrt centroids buf cnt = some r) :
    r.newCentroids.cols.length = centroids.n_cols ∧
    r.distortion = sqrt (((List.range centroids.n_cols).map (fun j =>
      (self.metric (centroids.cols.getD j []) (r.newCentroids.cols.getD j []) ^ 2) ^ 2)).sum) ∧
    r.distortion = sqrt (((List.range centroids.n_cols).map (fun j =>
      self.metric (centroids.cols.getD j []) (r.newCentroids.cols.getD j []) ^ 4)).sum) := by
  have hl := (Iterate_shape sqrt self centroids buf cnt r h).2.1
  have h1 := distortion_formula sqrt self centroids buf cnt r h
  refine ⟨hl, h1, ?_⟩
  rw [h1]
  congr 2
  apply List.map_congr_left
  intro j _
  ring

/-- The worked scenario over the rationals with the squared Euclidean distance and the
identity in place of `sqrt`. -/
theorem scenarioKernel_Iterate (buf : Mat ℚ) (cnt : List Nat) :
    scenarioKernel.Iterate id scenarioCentroids buf cnt = some
      { self := { scenarioKernel with distanceCalculations := 8 }
        newCentroids := ⟨2, [[0, 1], [10, 11]]⟩
        counts := [2, 2]
        distortion := 2 } := by
  have hA : assignPoints scenarioKernel.metric scenarioCentroids
      scenarioKernel.dataset.cols (Mat.zeros 2 2 : Mat ℚ).cols (List.replicate 2 0)
      = some ([[0, 2], [20, 22]], [2, 2]) := by
    simp only [assignPoints, scenarioCentroids, closestCluster_two, scenarioKernel,
      scenarioData, NaiveKMeans.new, sqDist, modifyAt, vecAdd, Mat.zeros, Mat.n_cols,
      List.replicate, List.zipWith, List.length, List.sum_cons, List.sum_nil]
    norm_num [modifyAt]
  have hI := Iterate_eq id scenarioKernel scenarioCentroids buf cnt _ _ hA
  rw [hI]
  simp [normalize, normalizeCol, cNormLoop, scenarioKernel, NaiveKMeans.new, sqDist,
    scenarioCentroids, scenarioData, Mat.n_cols, SIZE_BITS]
  norm_num

theorem C6_witness :
    ∃ r, scenarioKernel.Iterate id scenarioCentroids ⟨0, []⟩ [] = some r ∧
      r.newCentroids.cols.length = scenarioCentroids.n_cols ∧
      r.distortion = id (((List.range scenarioCentroids.n_cols).map (fun j =>
        (scenarioKernel.metric (scenarioCentroids.cols.getD j [])
          (r.newCentroids.cols.getD j []) ^ 2) ^ 2)).sum) ∧
      r.distortion = id (((List.range scenarioCentroids.n_cols).map (fun j =>
        scenarioKernel.metric (scenarioCentroids.cols.getD j [])
          (r.newCentroids.cols.getD j []) ^ 4)).sum) :=
  ⟨_, scenarioKernel_Iterate ⟨0, []⟩ [],
    C6_distortion_is_sqrt_of_sum_of_fourth_powers id scenarioKernel scenarioCentroids
      ⟨0, []⟩ [] _ (scenarioKernel_Iterate ⟨0, []⟩ [])⟩

theorem sum_fourth_nonneg (f : Nat → α) : ∀ (l : List Nat),
    0 ≤ (l.map (fun j => (f j ^ 2) ^ 2)).sum ∧
    ((l.map (fun j => (f j ^ 2) ^ 2)).sum = 0 ↔ ∀ j ∈ l, f j = 0)
  | [] => by simp
  | a :: l => by
    obtain ⟨ih1, ih2⟩ := sum_fourth_nonneg f l
    have ha : 0 ≤ (f a ^ 2) ^ 2 := by positivity
    refine ⟨by simpa using add_nonneg ha ih1, ?_⟩
    simp only [List.map_cons, List.sum_cons, List.mem_cons, forall_eq_or_imp]
    rw [add_eq_zero_iff_of_nonneg ha ih1, ih2]
    simp

/-- The worked scenario over the reals with the Euclidean metric: what `Iterate`
returns. -/
theorem euclidean_scenario_Iterate (buf : Mat ℝ) (cnt : List Nat) :
    NaiveKMeans.Iterate Real.sqrt
      (NaiveKMeans.new ⟨2, [[0, 0], [0, 2], [10, 10], [10, 12]]⟩ (euclidean Real.sqrt))
      ⟨2, [[0, 0], [10, 10]]⟩ buf cnt
      = some
        { self := { dataset := ⟨2, [[0, 0], [0, 2], [10, 10], [10, 12]]⟩
                    metric := euclidean Real.sqrt
                    distanceCalculations := 8 }
          newCentroids := ⟨2, [[0, 1], [10, 11]]⟩
          counts := [2, 2]
          distortion := Real.sqrt 2 } := by
  have h1 : closestCluster (euclidean Real.sqrt) ⟨2, [[0, 0], [10, 10]]⟩ [0, 0] = 0 :=
    euclidean_closest_zero _ _ _ _ (by norm_num [sqDist])
  have h2 : closestCluster (euclidean Real.sqrt) ⟨2, [[0, 0], [10, 10]]⟩ [0, 2] = 0 :=
    euclidean_closest_zero _ _ _ _ (by norm_num [sqDist])
  have h3 : closestCluster (euclidean Real.sqrt) ⟨2, [[0, 0], [10, 10]]⟩ [10, 10] = 1 :=
    euclidean_closest_one _ _ _ _ (by norm_num [sqDist]) (by norm_num [sqDist])
  have h4 : closestCluster (euclidean Real.sqrt) ⟨2, [[0, 0], [10, 10]]⟩ [10, 12] = 1 :=
    euclidean_closest_one _ _ _ _ (by norm_num [sqDist]) (by norm_num [sqDist])
  have hA : assignPoints (euclidean Real.sqrt) ⟨2, [[0, 0], [10, 10]]⟩
      [[0, 0], [0, 2], [10, 10], [10, 12]] (Mat.zeros 2 2 : Mat ℝ).cols (List.replicate 2 0)
      = some ([[0, 2], [20, 22]], [2, 2]) := by
    simp only [assignPoints, h1, h2, h3, h4, modifyAt, vecAdd, Mat.zeros, Mat.n_cols,
      List.replicate, List.zipWith, List.length]
    norm_num
  rw [Iterate_eq Real.sqrt _ _ buf cnt _ _ hA]
  have hc : cNormLoop (euclidean Real.sqrt) [[0, 0], [10, 10]] [[0, 1], [10, 11]] 0
      = (2 : ℝ) := by
    simp only [cNormLoop, euclidean, sqDist, List.zipWith, List.sum_cons, List.sum_nil]
    norm_num
  have hn : normalize ([[0, 2], [20, 22]] : List (List ℝ)) [2, 2] = [[0, 1], [10, 11]] := by
    simp only [normalize, normalizeCol, List.zipWith, List.map]
    norm_num
  simp only [hn]
  rw [show (NaiveKMeans.new ⟨2, [[0, 0], [0, 2], [10, 10], [10, 12]]⟩
    (euclidean Real.sqrt)).metric = euclidean Real.sqrt from rfl, hc]
  rfl

/-- C7 (as amended): in exact arithmetic, where coordinates and metric values are
elements of an ordered field and nothing is rounded, underflows or overflows, and for a
`sqrt` that is non-negative on non-negative arguments and vanishes there only at 0, the
value returned by `Iterate` is non-negative, and it is zero if and only if
`metric(centroids[j], newCentroids[j]) = 0` for every centroid index `j`. -/
theorem C7_distortion_nonneg_and_zero_iff (sqrt : α → α)
    (hnonneg : ∀ x, 0 ≤ x → 0 ≤ sqrt x) (hzero : ∀ x, 0 ≤ x → (sqrt x = 0 ↔ x = 0))
    (self : NaiveKMeans α) (centroids buf : Mat α) (cnt : List Nat) (r : IterateResult α)
    (h : self.Iterate sqrt centroids buf cnt = some r) :
    0 ≤ r.distortion ∧
    (r.distortion = 0 ↔ ∀ j, j < centroids.n_cols →
      self.metric (centroids.cols.getD j []) (r.newCentroids.cols.getD j []) = 0) := by
  have h2 := distortion_formula sqrt self centroids buf cnt r h
  obtain ⟨hs1, hs2⟩ := sum_fourth_nonneg
    (fun j => self.metric (centroids.cols.getD j []) (r.newCentroids.cols.getD j []))
    (List.range centroids.n_cols)
  rw [h2]
  refine ⟨hnonneg _ hs1, ?_⟩
  rw [hzero _ hs1, hs2]
  simp only [List.mem_range]

theorem C7_witness :
    (∀ x : ℝ, 0 ≤ x → 0 ≤ Real.sqrt x) ∧
    (∀ x : ℝ, 0 ≤ x → (Real.sqrt x = 0 ↔ x = 0)) ∧
    ∃ r, NaiveKMeans.Iterate Real.sqrt
        (NaiveKMeans.new ⟨2, [[0, 0], [0, 2], [10, 10], [10, 12]]⟩ (euclidean Real.sqrt))
        ⟨2, [[0, 0], [10, 10]]⟩ ⟨0, []⟩ [] = some r ∧
      0 ≤ r.distortion ∧
      (r.distortion = 0 ↔ ∀ j, j < 2 →
        euclidean Real.sqrt ((([[0, 0], [10, 10]] : List (List ℝ))).getD j [])
          (r.newCentroids.cols.getD j []) = 0) :=
  have h1 : ∀ x : ℝ, 0 ≤ x → 0 ≤ Real.sqrt x := fun x _ => Real.sqrt_nonneg x
  have h2 : ∀ x : ℝ, 0 ≤ x → (Real.sqrt x = 0 ↔ x = 0) := fun _ hx => Real.sqrt_eq_zero hx
  ⟨h1, h2, _, euclidean_scenario_Iterate ⟨0, []⟩ [],
    C7_distortion_nonneg_and_zero_iff Real.sqrt h1 h2 _ _ ⟨0, []⟩ [] _
      (euclidean_scenario_Iterate ⟨0, []⟩ [])⟩

/-- The worked scenario in binary64 arithmetic with the Euclidean metric: the same
counts and new centroids as in exact arithmetic, counter 8, and as distortion the double
nearest to the square root of 2. -/
theorem IterateDbl_worked_scenario :
    (IterateDbl
        { dataset := ⟨2, [[Dbl.fin 0, Dbl.fin 0], [Dbl.fin 0, Dbl.fin 2],
            [Dbl.fin 10, Dbl.fin 10], [Dbl.fin 10, Dbl.fin 12]]⟩
          metric := euclideanDbl
          distanceCalculations := 0 }
        ⟨2, [[Dbl.fin 0, Dbl.fin 0], [Dbl.fin 10, Dbl.fin 10]]⟩ ⟨0, []⟩ []).map
        (fun r => (r.counts, r.newCentroids.cols, r.distortion, r.self.distanceCalculations))
      = some ([2, 2], [[Dbl.fin 0, Dbl.fin 1], [Dbl.fin 10, Dbl.fin 11]],
          Dbl.fin (6369051672525773 / 2 ^ 52), 8) := by
  decide!

/-- C7 fails as stated on the doubles the code computes with: for the dataset
{(2^-200)}, the centroid set {(0)} and the squared Euclidean distance, `Iterate` returns
with `counts = {1}` and `newCentroids = {(2^-200)}`, the distance from the old to the new
centroid is `2^-400`, not zero, and its fourth power underflows, so the returned
distortion is exactly 0. -/
theorem C7_fourth_power_underflows :
    (IterateDbl tinyKernel zeroCentroid ⟨0, []⟩ []).map
        (fun r => (r.counts, r.newCentroids.cols, r.distortion))
      = some ([1], [[Dbl.fin (1 / 2 ^ 200)]], Dbl.fin 0) ∧
    tinyKernel.metric [Dbl.fin 0] [Dbl.fin (1 / 2 ^ 200)] = Dbl.fin (1 / 2 ^ 400) ∧
    Dbl.fin (1 / 2 ^ 400) ≠ Dbl.fin 0 ∧
    Dbl.round (1 / 2 ^ 200) = Dbl.fin (1 / 2 ^ 200) := by
  decide!

/-- C8: for a metric that returns 0 on identical vectors and a `sqrt` with
`sqrt 0 = 0`, if the columns of `newCentroids` produced by `Iterate` equal those of the
input `centroids`, the returned value is exactly 0. -/
theorem C8_distortion_zero_when_centroids_unchanged (sqrt : α → α) (hsqrt : sqrt 0 = 0)
    (self : NaiveKMeans α) (hmetric : ∀ v, self.metric v v = 0)
    (centroids buf : Mat α) (cnt : List Nat) (r : IterateResult α)
    (h : self.Iterate sqrt centroids buf cnt = some r)
    (hsame : r.newCentroids.cols = centroids.cols) :
    r.distortion = 0 := by
  have hd := (Iterate_shape sqrt self centroids buf cnt r h).2.2.2
  have hz : ∀ (cs : List (List α)) (cNorm : α),
      cNormLoop self.metric cs cs cNorm = cNorm := by
    intro cs
    induction cs with
    | nil => intro cNorm; rfl
    | cons c cs ih =>
      intro cNorm
      simp only [cNormLoop, hmetric c]
      rw [ih]
      simp
  rw [hd, hsame, hz, hsqrt]

theorem sqDist_self (v : List α) : sqDist v v = 0 := by
  induction v with
  | nil => simp [sqDist]
  | cons x xs ih =>
    simp only [sqDist, List.zipWith_cons_cons, List.sum_cons] at ih ⊢
    rw [ih]; simp

theorem C8_witness :
    (id (0 : ℚ) = 0) ∧
    (∀ v, (NaiveKMeans.new scenarioCentroids sqDist).metric v v = 0) ∧
    ∃ r, (NaiveKMeans.new scenarioCentroids sqDist).Iterate id scenarioCentroids ⟨0, []⟩ []
        = some r ∧
      r.newCentroids.cols = scenarioCentroids.cols ∧ r.distortion = 0 := by
  have hm : ∀ v, (NaiveKMeans.new scenarioCentroids sqDist).metric v v = 0 :=
    fun v => sqDist_self v
  have hA : assignPoints (NaiveKMeans.new scenarioCentroids sqDist).metric scenarioCentroids
      (NaiveKMeans.new scenarioCentroids sqDist).dataset.cols
      (Mat.zeros 2 2 : Mat ℚ).cols (List.replicate 2 0)
      = some ([[0, 0], [10, 10]], [1, 1]) := by
    simp only [assignPoints, scenarioCentroids, closestCluster_two,
      NaiveKMeans.new, sqDist, modifyAt, vecAdd, Mat.zeros, Mat.n_cols,
      List.replicate, List.zipWith, List.length, List.sum_cons, List.sum_nil]
    norm_num [modifyAt]
  have hI := Iterate_eq id (NaiveKMeans.new scenarioCentroids sqDist) scenarioCentroids
    ⟨0, []⟩ [] _ _ hA
  have hsame : normalize [[0, 0], [10, 10]] [1, 1] = scenarioCentroids.cols := by
    simp [normalize, normalizeCol, scenarioCentroids]
  exact ⟨rfl, hm, _, hI, hsame,
    C8_distortion_zero_when_centroids_unchanged id rfl _ hm scenarioCentroids ⟨0, []⟩ []
      _ hI hsame⟩

theorem vecAdd_right_comm : ∀ (c x y : List α),
    vecAdd (vecAdd c x) y = vecAdd (vecAdd c y) x
  | [], _, _ => by simp [vecAdd]
  | _ :: _, [], [] => by simp [vecAdd]
  | _ :: _, [], _ :: _ => by simp [vecAdd]
  | _ :: _, _ :: _, [] => by simp [vecAdd]
  | a :: c, b :: x, d :: y => by
    have ih := vecAdd_right_comm c x y
    simp only [vecAdd, List.zipWith_cons_cons, List.cons.injEq] at ih ⊢
    exact ⟨by ring, ih⟩

theorem modifyAt_comm {β : Type} (f g : β → β) (hfg : ∀ a, f (g a) = g (f a)) :
    ∀ (i j : Nat) (l : List β),
      modifyAt f i (modifyAt g j l) = modifyAt g j (modifyAt f i l)
  | _, _, [] => by simp [modifyAt]
  | 0, 0, a :: l => by simp [modifyAt, hfg]
  | 0, j + 1, a :: l => by simp [modifyAt]
  | i + 1, 0, a :: l => by simp [modifyAt]
  | i + 1, j + 1, a :: l => by simp [modifyAt, modifyAt_comm f g hfg i j l]

theorem assignPoints_perm (metric : List α → List α → α) (centroids : Mat α)
    {ps qs : List (List α)} (hp : ps.Perm qs) :
    ∀ (cols : List (List α)) (counts : List Nat),
      assignPoints metric centroids ps cols counts
        = assignPoints metric centroids qs cols counts := by
  induction hp with
  | nil => intro cols counts; rfl
  | cons x _ ih =>
    intro cols counts
    simp only [assignPoints]
    split
    · rfl
    · exact ih _ _
  | swap x y l =>
    intro cols counts
    simp only [assignPoints]
    by_cases hx : closestCluster metric centroids x = centroids.n_cols
    · by_cases hy : closestCluster metric centroids y = centroids.n_cols
      · simp [hx, hy]
      · simp [hx, hy]
    · by_cases hy : closestCluster metric centroids y = centroids.n_cols
      · simp [hx, hy]
      · simp only [if_neg hx, if_neg hy]
        have h1 : modifyAt (fun col => vecAdd col x) (closestCluster metric centroids x)
            (modifyAt (fun col => vecAdd col y) (closestCluster metric centroids y) cols)
            = modifyAt (fun col => vecAdd col y) (closestCluster metric centroids y)
              (modifyAt (fun col => vecAdd col x) (closestCluster metric centroids x) cols) :=
          modifyAt_comm _ _ (fun a => vecAdd_right_comm a y x) _ _ _
        have h2 : modifyAt (· + 1) (closestCluster metric centroids x)
            (modifyAt (· + 1) (closestCluster metric centroids y) counts)
            = modifyAt (· + 1) (closestCluster metric centroids y)
              (modifyAt (· + 1) (closestCluster metric centroids x) counts) :=
          modifyAt_comm _ _ (fun _ => rfl) _ _ _
        rw [h1, h2]
  | trans _ _ ih1 ih2 =>
    intro cols counts
    rw [ih1, ih2]

/-- C9: for every kernel, every reordering `ps` of its dataset's points, every centroid
set and every metric, `Iterate` on the reordered dataset fails exactly when it fails on
the original one, and otherwise yields the same `counts`, the same `newCentroids`, the
same returned distortion and the same counter. -/
theorem C9_Iterate_invariant_under_point_order (sqrt : α → α) (self : NaiveKMeans α)
    (ps : List (List α)) (hperm : ps.Perm self.dataset.cols)
    (centroids buf : Mat α) (cnt : List Nat) :
    (NaiveKMeans.Iterate sqrt { self with dataset := ⟨self.dataset.n_rows, ps⟩ }
        centroids buf cnt).map
      (fun r => (r.counts, r.newCentroids, r.distortion, r.self.distanceCalculations))
    = (self.Iterate sqrt centroids buf cnt).map
      (fun r => (r.counts, r.newCentroids, r.distortion, r.self.distanceCalculations)) := by
  have hA := assignPoints_perm self.metric centroids hperm
    (Mat.zeros centroids.n_rows centroids.n_cols : Mat α).cols
    (List.replicate centroids.n_cols 0)
  have hN : ps.length = self.dataset.cols.length := hperm.length_eq
  cases hres : assignPoints self.metric centroids self.dataset.cols
      (Mat.zeros centroids.n_rows centroids.n_cols : Mat α).cols
      (List.replicate centroids.n_cols 0) with
  | none =>
    rw [hres] at hA
    simp [NaiveKMeans.Iterate, hA, hres]
  | some res =>
    obtain ⟨newCols, counts⟩ := res
    rw [hres] at hA
    rw [Iterate_eq sqrt self centroids buf cnt newCols counts hres,
      Iterate_eq sqrt { self with dataset := ⟨self.dataset.n_rows, ps⟩ } centroids buf cnt
        newCols counts hA]
    simp [Mat.n_cols, hN]

theorem C9_witness :
    ([[0, 2], [0, 0], [10, 10], [10, 12]] : List (List ℚ)).Perm scenarioKernel.dataset.cols ∧
    (NaiveKMeans.Iterate id
        { scenarioKernel with
          dataset := ⟨scenarioKernel.dataset.n_rows, [[0, 2], [0, 0], [10, 10], [10, 12]]⟩ }
        scenarioCentroids ⟨0, []⟩ []).map
      (fun r => (r.counts, r.newCentroids, r.distortion, r.self.distanceCalculations))
    = (scenarioKernel.Iterate id scenarioCentroids ⟨0, []⟩ []).map
      (fun r => (r.counts, r.newCentroids, r.distortion, r.self.distanceCalculations)) :=
  ⟨List.Perm.swap _ _ _,
    C9_Iterate_invariant_under_point_order id scenarioKernel
      [[0, 2], [0, 0], [10, 10], [10, 12]] (List.Perm.swap _ _ _)
      scenarioCentroids ⟨0, []⟩ []⟩

/-- C10: for the dataset {(0,0),(0,2),(10,10),(10,12)}, centroids {(0,0),(10,10)} and
the Euclidean metric, the scan sends the first two points to cluster 0 and the last two
to cluster 1, and `Iterate` returns with `counts = {2,2}`,
`newCentroids = {(0,1),(10,11)}`, counter 8 and distortion `sqrt 2`, which is strictly
positive. -/
theorem C10_worked_scenario (buf : Mat ℝ) (cnt : List Nat) :
    closestCluster (euclidean Real.sqrt) ⟨2, [[0, 0], [10, 10]]⟩ [0, 0] = 0 ∧
    closestCluster (euclidean Real.sqrt) ⟨2, [[0, 0], [10, 10]]⟩ [0, 2] = 0 ∧
    closestCluster (euclidean Real.sqrt) ⟨2, [[0, 0], [10, 10]]⟩ [10, 10] = 1 ∧
    closestCluster (euclidean Real.sqrt) ⟨2, [[0, 0], [10, 10]]⟩ [10, 12] = 1 ∧
    NaiveKMeans.Iterate Real.sqrt
      (NaiveKMeans.new ⟨2, [[0, 0], [0, 2], [10, 10], [10, 12]]⟩ (euclidean Real.sqrt))
      ⟨2, [[0, 0], [10, 10]]⟩ buf cnt
      = some
        { self := { dataset := ⟨2, [[0, 0], [0, 2], [10, 10], [10, 12]]⟩
                    metric := euclidean Real.sqrt
                    distanceCalculations := 8 }
          newCentroids := ⟨2, [[0, 1], [10, 11]]⟩
          counts := [2, 2]
          distortion := Real.sqrt 2 } ∧
    0 < Real.sqrt 2 := by
  have h1 : closestCluster (euclidean Real.sqrt) ⟨2, [[0, 0], [10, 10]]⟩ [0, 0] = 0 :=
    euclidean_closest_zero _ _ _ _ (by norm_num [sqDist])
  have h2 : closestCluster (euclidean Real.sqrt) ⟨2, [[0, 0], [10, 10]]⟩ [0, 2] = 0 :=
    euclidean_closest_zero _ _ _ _ (by norm_num [sqDist])
  have h3 : closestCluster (euclidean Real.sqrt) ⟨2, [[0, 0], [10, 10]]⟩ [10, 10] = 1 :=
    euclidean_closest_one _ _ _ _ (by norm_num [sqDist]) (by norm_num [sqDist])
  have h4 : closestCluster (euclidean Real.sqrt) ⟨2, [[0, 0], [10, 10]]⟩ [10, 12] = 1 :=
    euclidean_closest_one _ _ _ _ (by norm_num [sqDist]) (by norm_num [sqDist])
  refine ⟨h1, h2, h3, h4, ?_, Real.sqrt_pos.mpr (by norm_num)⟩
  have hA : assignPoints (euclidean Real.sqrt) ⟨2, [[0, 0], [10, 10]]⟩
      [[0, 0], [0, 2], [10, 10], [10, 12]] (Mat.zeros 2 2 : Mat ℝ).cols (List.replicate 2 0)
      = some ([[0, 2], [20, 22]], [2, 2]) := by
    simp only [assignPoints, h1, h2, h3, h4, modifyAt, vecAdd, Mat.zeros, Mat.n_cols,
      List.replicate, List.zipWith, List.length]
    norm_num
  rw [Iterate_eq Real.sqrt _ _ buf cnt _ _ hA]
  have hc : cNormLoop (euclidean Real.sqrt) [[0, 0], [10, 10]] [[0, 1], [10, 11]] 0
      = (2 : ℝ) := by
    simp only [cNormLoop, euclidean, sqDist, List.zipWith, List.sum_cons, List.sum_nil]
    norm_num
  have hn : normalize ([[0, 2], [20, 22]] : List (List ℝ)) [2, 2] = [[0, 1], [10, 11]] := by
    simp only [normalize, normalizeCol, List.zipWith, List.map]
    norm_num
  simp only [hn]
  rw [show (NaiveKMeans.new ⟨2, [[0, 0], [0, 2], [10, 10], [10, 12]]⟩
    (euclidean Real.sqrt)).metric = euclidean Real.sqrt from rfl, hc]
  rfl

/-- C11: with at least one centroid `Iterate` returns, `counts` has exactly `K` entries,
and for every `j < K` entry `j` is the number of dataset points whose nearest centroid,
lowest index among the closest, is `j`. -/
theorem C11_counts_are_cluster_sizes (sqrt : α → α) (self : NaiveKMeans α)
    (centroids buf : Mat α) (cnt : List Nat) (hK : 1 ≤ centroids.n_cols) :
    ∃ r, self.Iterate sqrt centroids buf cnt = some r ∧
      r.counts.length = centroids.n_cols ∧
      ∀ j, j < centroids.n_cols →
        r.counts.getD j 0
          = (nearestPoints self.metric centroids.cols j self.dataset.cols).length := by
  obtain ⟨newCols, counts, hI, _, hl2, hall⟩ := Iterate_spec sqrt self centroids buf cnt hK
  refine ⟨_, hI, hl2, ?_⟩
  intro j hj
  have h2 := (hall j hj).2
  rw [assignedTo_eq_nearestPoints _ _ hK] at h2
  exact h2

theorem C11_witness :
    1 ≤ scenarioCentroids.n_cols ∧
    ∃ r, scenarioKernel.Iterate id scenarioCentroids ⟨0, []⟩ [] = some r ∧
      r.counts.length = scenarioCentroids.n_cols ∧
      ∀ j, j < scenarioCentroids.n_cols →
        r.counts.getD j 0
          = (nearestPoints scenarioKernel.metric scenarioCentroids.cols j
              scenarioKernel.dataset.cols).length :=
  ⟨by decide,
    C11_counts_are_cluster_sizes id scenarioKernel scenarioCentroids ⟨0, []⟩ [] (by decide)⟩

/-- C13: with at least one centroid (metric values are field elements, so finite), the
scan leaves for every point a cluster index strictly below `K`, never the invalid value
`K` that makes `Log::Assert` fail, the accumulation loop runs through all points, and
`Iterate` returns a result. -/
theorem C13_assertion_never_fails (sqrt : α → α) (self : NaiveKMeans α)
    (centroids buf : Mat α) (cnt : List Nat) (hK : 1 ≤ centroids.n_cols) :
    (∀ p, closestCluster self.metric centroids p < centroids.n_cols ∧
      closestCluster self.metric centroids p ≠ centroids.n_cols) ∧
    (∀ ps cols counts, cols.length = centroids.n_cols → counts.length = centroids.n_cols →
      (assignPoints self.metric centroids ps cols counts).isSome = true) ∧
    ∃ r, self.Iterate sqrt centroids buf cnt = some r := by
  refine ⟨fun p => ?_, fun ps cols counts hc hn => ?_, ?_⟩
  · have h := (closestCluster_isNearest self.metric centroids p hK).1
    exact ⟨h, Nat.ne_of_lt h⟩
  · obtain ⟨newCols, newCounts, hA, _⟩ :=
      assignPoints_spec self.metric centroids hK ps cols counts hc hn
    rw [hA]; rfl
  · obtain ⟨newCols, counts, hI, _⟩ := Iterate_spec sqrt self centroids buf cnt hK
    exact ⟨_, hI⟩

theorem C13_witness :
    1 ≤ scenarioCentroids.n_cols ∧
    ∃ r, scenarioKernel.Iterate id scenarioCentroids ⟨0, []⟩ [] = some r :=
  ⟨by decide,
    (C13_assertion_never_fails id scenarioKernel scenarioCentroids ⟨0, []⟩ []
      (by decide)).2.2⟩

/-- C16: with no centroid (`K = 0`) and a dataset whose first point is `p`, the scan of
`p` ends with `closestCluster` at the invalid value `K`, the assertion fails on that
first point, and `Iterate` ends in the error result: no counts, centroids or distortion
are produced. -/
theorem C16_no_centroids_fails (sqrt : α → α) (self : NaiveKMeans α)
    (centroids buf : Mat α) (cnt : List Nat) (p : List α) (rest : List (List α))
    (hK : centroids.n_cols = 0) (hN : self.dataset.cols = p :: rest) :
    closestCluster self.metric centroids p = centroids.n_cols ∧
    (∀ cols counts,
      assignPoints self.metric centroids (p :: rest) cols counts = none) ∧
    self.Iterate sqrt centroids buf cnt = none := by
  have hnil : centroids.cols = [] := List.eq_nil_of_length_eq_zero hK
  have hcc : closestCluster self.metric centroids p = centroids.n_cols := by
    simp [closestCluster, hnil, scanCentroids]
  have hA : ∀ cols counts,
      assignPoints self.metric centroids (p :: rest) cols counts = none := by
    intro cols counts
    simp only [assignPoints, hcc, if_true]
  refine ⟨hcc, hA, ?_⟩
  simp only [NaiveKMeans.Iterate, hN, hA]

theorem C16_witness :
    (⟨2, []⟩ : Mat ℚ).n_cols = 0 ∧
    scenarioKernel.dataset.cols = [0, 0] :: [[0, 2], [10, 10], [10, 12]] ∧
    scenarioKernel.Iterate id ⟨2, []⟩ ⟨0, []⟩ [] = none :=
  ⟨rfl, rfl,
    (C16_no_centroids_fails id scenarioKernel ⟨2, []⟩ ⟨0, []⟩ [] [0, 0]
      [[0, 2], [10, 10], [10, 12]] rfl rfl).2.2⟩

theorem duplicate_never_closest (metric : List α → List α → α) (centroids : Mat α)
    (i j : Nat) (hij : i < j) (hj : j < centroids.n_cols)
    (hdup : centroids.cols.getD i [] = centroids.cols.getD j []) (p : List α) :
    closestCluster metric centroids p ≠ j := by
  intro hcc
  have hK : 1 ≤ centroids.n_cols := by omega
  have hn := closestCluster_isNearest metric centroids p hK
  rw [hcc] at hn
  have hlt := hn.2.2 i hij
  simp only [distTo, hdup] at hlt
  exact lt_irrefl _ hlt

/-- C18: if `centroids[i]` and `centroids[j]` are equal vectors with `i < j < K`, then
no point is sent to cluster `j` by the scan, and after `Iterate`, which returns,
`counts[j] == 0` and every one of the `n_rows` coordinates of `newCentroids[j]` is
`DBL_MAX`. -/
theorem C18_later_duplicate_centroid_is_empty (sqrt : α → α) (self : NaiveKMeans α)
    (centroids buf : Mat α) (cnt : List Nat) (i j : Nat) (hij : i < j)
    (hj : j < centroids.n_cols)
    (hdup : centroids.cols.getD i [] = centroids.cols.getD j []) :
    (∀ p, closestCluster self.metric centroids p ≠ j) ∧
    ∃ r, self.Iterate sqrt centroids buf cnt = some r ∧
      r.counts.getD j 0 = 0 ∧
      r.newCentroids.cols.getD j [] = List.replicate centroids.n_rows DBL_MAX := by
  have hne := duplicate_never_closest self.metric centroids i j hij hj hdup
  have hK : 1 ≤ centroids.n_cols := by omega
  obtain ⟨newCols, counts, hI, _, _, hall⟩ := Iterate_spec sqrt self centroids buf cnt hK
  have hnil : assignedTo self.metric centroids j self.dataset.cols = [] := by
    unfold assignedTo
    rw [List.filter_eq_nil_iff]
    intro p _
    simpa using hne p
  have h0 : counts.getD j 0 = 0 := by
    rw [(hall j hj).2, hnil]; rfl
  exact ⟨hne, _, hI, h0, empty_cluster_sentinel sqrt self centroids buf cnt _ hI j hj h0⟩

theorem C18_witness :
    (0 < 1) ∧ 1 < (⟨2, [[0, 0], [0, 0]]⟩ : Mat ℚ).n_cols ∧
    (⟨2, [[0, 0], [0, 0]]⟩ : Mat ℚ).cols.getD 0 []
      = (⟨2, [[0, 0], [0, 0]]⟩ : Mat ℚ).cols.getD 1 [] ∧
    ∃ r, scenarioKernel.Iterate id ⟨2, [[0, 0], [0, 0]]⟩ ⟨0, []⟩ [] = some r ∧
      r.counts.getD 1 0 = 0 ∧
      r.newCentroids.cols.getD 1 [] = List.replicate 2 DBL_MAX :=
  ⟨by decide, by decide, rfl,
    (C18_later_duplicate_centroid_is_empty id scenarioKernel ⟨2, [[0, 0], [0, 0]]⟩ ⟨0, []⟩ []
      0 1 (by decide) (by decide) rfl).2⟩

theorem mem_modifyAt {β : Type} (f : β → β) : ∀ (j : Nat) (l : List β) (c : β),
    c ∈ modifyAt f j l → c ∈ l ∨ ∃ a ∈ l, c = f a
  | _, [], c, h => by simp [modifyAt] at h
  | 0, x :: xs, c, h => by
    simp only [modifyAt, List.mem_cons] at h
    rcases h with h | h
    · exact Or.inr ⟨x, List.mem_cons_self _ _, h⟩
    · exact Or.inl (List.mem_cons_of_mem _ h)
  | j + 1, x :: xs, c, h => by
    simp only [modifyAt, List.mem_cons] at h
    rcases h with h | h
    · exact Or.inl (h ▸ List.mem_cons_self _ _)
    · rcases mem_modifyAt f j xs c h with h2 | ⟨a, ha, hc⟩
      · exact Or.inl (List.mem_cons_of_mem _ h2)
      · exact Or.inr ⟨a, List.mem_cons_of_mem _ ha, hc⟩

/-- A property of columns kept by adding any point of `ps` is kept by the accumulation
loop. -/
theorem assignPoints_cols_inv (metric : List α → List α → α) (centroids : Mat α)
    (P : List α → Prop) :
    ∀ (ps : List (List α)) (cols : List (List α)) (counts : List Nat)
      (newCols : List (List α)) (newCounts : List Nat),
      (∀ col p, p ∈ ps → P col → P (vecAdd col p)) → (∀ c ∈ cols, P c) →
      assignPoints metric centroids ps cols counts = some (newCols, newCounts) →
      ∀ c ∈ newCols, P c
  | [], cols, counts, newCols, newCounts, _, h0, h => by
    simp only [assignPoints, Option.some.injEq, Prod.mk.injEq] at h
    rw [← h.1]; exact h0
  | p :: rest, cols, counts, newCols, newCounts, hstep, h0, h => by
    simp only [assignPoints] at h
    split at h
    · exact absurd h (by simp)
    · refine assignPoints_cols_inv metric centroids P rest _ _ newCols newCounts
        (fun col q hq hc => hstep col q (List.mem_cons_of_mem _ hq) hc) ?_ h
      intro c hc
      rcases mem_modifyAt _ _ _ c hc with h1 | ⟨a, ha, hca⟩
      · exact h0 c h1
      · rw [hca]; exact hstep a p (List.mem_cons_self _ _) (h0 a ha)

theorem mem_normalize (newCols : List (List α)) (counts : List Nat) (c : List α)
    (h : c ∈ normalize newCols counts) : ∃ a ∈ newCols, c.length = a.length := by
  induction newCols generalizing counts with
  | nil => simp [normalize] at h
  | cons a as ih =>
    cases counts with
    | nil => simp [normalize] at h
    | cons n ns =>
      simp only [normalize, List.zipWith_cons_cons, List.mem_cons] at h
      rcases h with h | h
      · refine ⟨a, List.mem_cons_self _ _, ?_⟩
        rw [h]; unfold normalizeCol; split <;> simp
      · obtain ⟨b, hb, hl⟩ := ih ns h
        exact ⟨b, List.mem_cons_of_mem _ hb, hl⟩

/-- C12: `Iterate` does not depend on what its output buffers held on entry: for any
two prior contents and shapes of `newCentroids` and `counts` the outcome is the same.
After a returning call `newCentroids` has `n_rows = D` and exactly `K` columns and
`counts` exactly `K` entries; when the dataset's points have the centroids' dimension
`D`, every column of `newCentroids` has `D` entries. -/
theorem C12_output_buffers_overwritten (sqrt : α → α) (self : NaiveKMeans α)
    (centroids buf1 buf2 : Mat α) (cnt1 cnt2 : List Nat) :
    self.Iterate sqrt centroids buf1 cnt1 = self.Iterate sqrt centroids buf2 cnt2 ∧
    ∀ r, self.Iterate sqrt centroids buf1 cnt1 = some r →
      r.newCentroids.n_rows = centroids.n_rows ∧
      r.newCentroids.cols.length = centroids.n_cols ∧
      r.counts.length = centroids.n_cols ∧
      (self.dataset.WF → self.dataset.n_rows = centroids.n_rows → r.newCentroids.WF) := by
  refine ⟨rfl, ?_⟩
  intro r h
  obtain ⟨h1, h2, h3, _⟩ := Iterate_shape sqrt self centroids buf1 cnt1 r h
  refine ⟨h1, h2, h3, ?_⟩
  intro hds hdim
  obtain ⟨newCols, counts, hA, hr⟩ := Iterate_some sqrt self centroids buf1 cnt1 r h
  have hinv := assignPoints_cols_inv self.metric centroids
    (fun col => col.length = centroids.n_rows) self.dataset.cols _ _ newCols counts
    (fun col p hp hcol => by
      have hpl : p.length = centroids.n_rows := by rw [← hdim]; exact hds p hp
      have hcl : col.length = centroids.n_rows := hcol
      show (vecAdd col p).length = centroids.n_rows
      rw [vecAdd_length col p (by rw [hcl, hpl]), hcl])
    (by
      intro c hc
      simp only [Mat.zeros] at hc
      show c.length = centroids.n_rows
      rw [List.eq_of_mem_replicate hc]; simp)
    hA
  subst hr
  intro c hc
  obtain ⟨a, ha, hl⟩ := mem_normalize newCols counts c hc
  show c.length = centroids.n_rows
  rw [hl]; exact hinv a ha

theorem C12_witness :
    scenarioKernel.dataset.WF ∧ scenarioKernel.dataset.n_rows = scenarioCentroids.n_rows ∧
    ∃ r, scenarioKernel.Iterate id scenarioCentroids ⟨3, [[1, 2, 3]]⟩ [7, 7, 7] = some r ∧
      scenarioKernel.Iterate id scenarioCentroids ⟨0, []⟩ [] = some r ∧
      r.newCentroids.n_rows = scenarioCentroids.n_rows ∧
      r.newCentroids.cols.length = scenarioCentroids.n_cols ∧
      r.counts.length = scenarioCentroids.n_cols ∧
      r.newCentroids.WF := by
  have hWF : scenarioKernel.dataset.WF := by
    simp [Mat.WF, scenarioKernel, NaiveKMeans.new, scenarioData]
  have hI := scenarioKernel_Iterate ⟨3, [[1, 2, 3]]⟩ [7, 7, 7]
  have hT := C12_output_buffers_overwritten id scenarioKernel scenarioCentroids
    ⟨3, [[1, 2, 3]]⟩ ⟨0, []⟩ [7, 7, 7] []
  obtain ⟨h1, h2, h3, h4⟩ := hT.2 _ hI
  exact ⟨hWF, rfl, _, hI, hT.1 ▸ hI, h1, h2, h3, h4 hWF rfl⟩

theorem zipWith_assoc_of {β : Type} (f : β → β → β) (hf : ∀ a b c, f (f a b) c = f a (f b c)) :
    ∀ (x y z : List β),
      List.zipWith f (List.zipWith f x y) z = List.zipWith f x (List.zipWith f y z)
  | [], _, _ => by simp
  | _ :: _, [], _ => by simp
  | _ :: _, _ :: _, [] => by simp
  | a :: x, b :: y, c :: z => by
    simp [hf, zipWith_assoc_of f hf x y z]

theorem zipWith_comm_of {β : Type} (f : β → β → β) (hf : ∀ a b, f a b = f b a) :
    ∀ (x y : List β), List.zipWith f x y = List.zipWith f y x
  | [], y => by simp
  | _ :: _, [] => by simp
  | a :: x, b :: y => by
    simp [hf a b, zipWith_comm_of f hf x y]

theorem vecAdd_assoc (a b c : List α) : vecAdd (vecAdd a b) c = vecAdd a (vecAdd b c) :=
  zipWith_assoc_of (· + ·) (fun x y z => add_assoc x y z) a b c

theorem vecAdd_comm (a b : List α) : vecAdd a b = vecAdd b a :=
  zipWith_comm_of (· + ·) (fun x y => add_comm x y) a b

theorem combine_comm (a b : List (List α) × List Nat) : combine a b = combine b a := by
  unfold combine
  rw [zipWith_comm_of vecAdd vecAdd_comm a.1 b.1,
    zipWith_comm_of (· + ·) (fun x y => Nat.add_comm x y) a.2 b.2]

theorem combine_assoc (a b c : List (List α) × List Nat) :
    combine (combine a b) c = combine a (combine b c) := by
  unfold combine
  simp only
  rw [zipWith_assoc_of vecAdd vecAdd_assoc a.1 b.1 c.1,
    zipWith_assoc_of (· + ·) (fun x y z => Nat.add_assoc x y z) a.2 b.2 c.2]

theorem modifyAt_zipWith {β : Type} (f : β → β → β) (g : β → β)
    (hg : ∀ x y, g (f x y) = f x (g y)) :
    ∀ (j : Nat) (xs ys : List β),
      modifyAt g j (List.zipWith f xs ys) = List.zipWith f xs (modifyAt g j ys)
  | _, [], _ => by simp [modifyAt]
  | _, _ :: _, [] => by simp [modifyAt]
  | 0, x :: xs, y :: ys => by simp [modifyAt, hg]
  | j + 1, x :: xs, y :: ys => by
    simp [modifyAt, modifyAt_zipWith f g hg j xs ys]

theorem assignPoints_shift (metric : List α → List α → α) (centroids : Mat α) :
    ∀ (ps : List (List α)) (xs : List (List α)) (c : List Nat)
      (cols : List (List α)) (counts : List Nat) (res : List (List α) × List Nat),
      assignPoints metric centroids ps cols counts = some res →
      assignPoints metric centroids ps (List.zipWith vecAdd xs cols)
          (List.zipWith (· + ·) c counts)
        = some (combine (xs, c) res)
  | [], xs, c, cols, counts, res, h => by
    simp only [assignPoints, Option.some.injEq] at h
    rw [← h]; rfl
  | p :: rest, xs, c, cols, counts, res, h => by
    simp only [assignPoints] at h ⊢
    split at h
    · exact absurd h (by simp)
    · rename_i hne
      rw [if_neg hne,
        modifyAt_zipWith vecAdd (fun col => vecAdd col p) (fun x y => vecAdd_assoc x y p),
        modifyAt_zipWith (· + ·) (· + 1) (fun x y => (Nat.add_assoc x y 1))]
      exact assignPoints_shift metric centroids rest xs c _ _ res h

theorem assignPoints_append (metric : List α → List α → α) (centroids : Mat α) :
    ∀ (as bs : List (List α)) (cols : List (List α)) (counts : List Nat),
      assignPoints metric centroids (as ++ bs) cols counts
        = (assignPoints metric centroids as cols counts).bind
            (fun r => assignPoints metric centroids bs r.1 r.2)
  | [], bs, cols, counts => by simp [assignPoints]
  | p :: as, bs, cols, counts => by
    simp only [List.cons_append, assignPoints]
    split
    · rfl
    · exact assignPoints_append metric centroids as bs _ _

theorem zipWith_replicate_right {β : Type} (f : β → β → β) (z : β) :
    ∀ (xs : List β) (n : Nat), xs.length ≤ n → (∀ x ∈ xs, f x z = x) →
      List.zipWith f xs (List.replicate n z) = xs
  | [], _, _, _ => by simp
  | x :: xs, 0, h, _ => by simp at h
  | x :: xs, n + 1, h, hz => by
    simp only [List.replicate_succ, List.zipWith_cons_cons, hz x (List.mem_cons_self _ _)]
    rw [zipWith_replicate_right f z xs n (by simpa using h)
      (fun y hy => hz y (List.mem_cons_of_mem _ hy))]

theorem accumulate_cols_le (metric : List α → List α → α) (centroids : Mat α)
    (ps : List (List α)) (res : List (List α) × List Nat)
    (h : accumulate metric centroids ps = some res) :
    res.1.length = centroids.n_cols ∧ res.2.length = centroids.n_cols ∧
    ∀ c ∈ res.1, c.length ≤ centroids.n_rows := by
  obtain ⟨newCols, newCounts⟩ := res
  have hl := assignPoints_length metric centroids ps _ _ newCols newCounts h
  refine ⟨by simpa [Mat.zeros] using hl.1, by simpa using hl.2, ?_⟩
  refine assignPoints_cols_inv metric centroids (fun col => col.length ≤ centroids.n_rows)
    ps _ _ newCols newCounts ?_ ?_ h
  · intro col p _ hcol
    have hcl : col.length ≤ centroids.n_rows := hcol
    show (vecAdd col p).length ≤ centroids.n_rows
    simp only [vecAdd, List.length_zipWith]
    omega
  · intro c hc
    simp only [Mat.zeros] at hc
    show c.length ≤ centroids.n_rows
    rw [List.eq_of_mem_replicate hc]; simp

/-- The accumulation phase is the first half of `Iterate`: a returning call normalises
what `accumulate` computed on the kernel's dataset. -/
theorem Iterate_accumulate (sqrt : α → α) (self : NaiveKMeans α) (centroids buf : Mat α)
    (cnt : List Nat) (r : IterateResult α)
    (h : self.Iterate sqrt centroids buf cnt = some r) :
    ∃ res, accumulate self.metric centroids self.dataset.cols = some res ∧
      r.counts = res.2 ∧ r.newCentroids.cols = normalize res.1 res.2 := by
  obtain ⟨newCols, counts, hA, hr⟩ := Iterate_some sqrt self centroids buf cnt r h
  subst hr
  exact ⟨(newCols, counts), hA, rfl, rfl⟩

/-- C15 (as amended): in exact arithmetic, where sums are not rounded, and with at least
one centroid, the accumulation phase returns on `A`, on `B` and on `A ++ B`, and the
per-cluster coordinate sums and counts for `A ++ B` are the element-wise sums
(`combine`) of those for `A` and for `B`; `combine` is commutative and associative. -/
theorem C15_accumulation_is_a_fold (metric : List α → List α → α) (centroids : Mat α)
    (A B : List (List α)) (hK : 1 ≤ centroids.n_cols) :
    (∃ rA rB, accumulate metric centroids A = some rA ∧
      accumulate metric centroids B = some rB ∧
      accumulate metric centroids (A ++ B) = some (combine rA rB)) ∧
    (∀ x y : List (List α) × List Nat, combine x y = combine y x) ∧
    (∀ x y z : List (List α) × List Nat,
      combine (combine x y) z = combine x (combine y z)) := by
  refine ⟨?_, combine_comm, combine_assoc⟩
  obtain ⟨colsA, countsA, hA, _⟩ := assignPoints_spec metric centroids hK A
    (Mat.zeros centroids.n_rows centroids.n_cols : Mat α).cols
    (List.replicate centroids.n_cols 0) (by simp [Mat.zeros]) (by simp)
  obtain ⟨colsB, countsB, hB, _⟩ := assignPoints_spec metric centroids hK B
    (Mat.zeros centroids.n_rows centroids.n_cols : Mat α).cols
    (List.replicate centroids.n_cols 0) (by simp [Mat.zeros]) (by simp)
  refine ⟨(colsA, countsA), (colsB, countsB), hA, hB, ?_⟩
  obtain ⟨hl1, hl2, hle⟩ := accumulate_cols_le metric centroids A (colsA, countsA) hA
  have hshift := assignPoints_shift metric centroids B colsA countsA _ _ _ hB
  have hz1 : List.zipWith vecAdd colsA
      (Mat.zeros centroids.n_rows centroids.n_cols : Mat α).cols = colsA := by
    simp only [Mat.zeros]
    apply zipWith_replicate_right vecAdd _ colsA _ (le_of_eq hl1)
    intro x hx
    exact zipWith_replicate_right (· + ·) 0 x _ (hle x hx) (fun a _ => add_zero a)
  have hz2 : List.zipWith (· + ·) countsA (List.replicate centroids.n_cols 0) = countsA :=
    zipWith_replicate_right (· + ·) 0 countsA _ (le_of_eq hl2) (fun a _ => Nat.add_zero a)
  rw [hz1, hz2] at hshift
  unfold accumulate
  rw [assignPoints_append, hA]
  exact hshift

theorem C15_witness :
    1 ≤ scenarioCentroids.n_cols ∧
    ∃ rA rB, accumulate sqDist scenarioCentroids [[0, 0], [0, 2]] = some rA ∧
      accumulate sqDist scenarioCentroids [[10, 10], [10, 12]] = some rB ∧
      accumulate sqDist scenarioCentroids ([[0, 0], [0, 2]] ++ [[10, 10], [10, 12]])
        = some (combine rA rB) :=
  ⟨by decide,
    (C15_accumulation_is_a_fold sqDist scenarioCentroids [[0, 0], [0, 2]]
      [[10, 10], [10, 12]] (by decide)).1⟩

/-- C15 fails as stated on the doubles the code computes with: for the centroid set
{(0)}, `A = {(2^53)}` and `B = {(1),(1)}` the accumulation phase gives the coordinate sum
`2^53` for `A ++ B` (each `2^53 + 1` rounds back to `2^53`), but `2^53` for `A` and `2`
for `B`, whose element-wise sum is `2^53 + 2`; the counts, 3 on both sides, agree. -/
theorem C15_rounded_sums_do_not_combine :
    accumulateDbl sqDistDbl zeroCentroid ([[Dbl.fin (2 ^ 53)]] ++ [[Dbl.fin 1], [Dbl.fin 1]])
      = some ([[Dbl.fin (2 ^ 53)]], [3]) ∧
    accumulateDbl sqDistDbl zeroCentroid [[Dbl.fin (2 ^ 53)]]
      = some ([[Dbl.fin (2 ^ 53)]], [1]) ∧
    accumulateDbl sqDistDbl zeroCentroid [[Dbl.fin 1], [Dbl.fin 1]]
      = some ([[Dbl.fin 2]], [2]) ∧
    combineDbl ([[Dbl.fin (2 ^ 53)]], [1]) ([[Dbl.fin 2]], [2])
      = ([[Dbl.fin (2 ^ 53 + 2)]], [3]) ∧
    (([[Dbl.fin (2 ^ 53)]], [3]) : List (List Dbl) × List Nat)
      ≠ ([[Dbl.fin (2 ^ 53 + 2)]], [3]) ∧
    Dbl.round (2 ^ 53) = Dbl.fin (2 ^ 53) ∧ Dbl.round (2 ^ 53 + 2) = Dbl.fin (2 ^ 53 + 2) := by
  decide!

theorem range_sum_eq_finset (f : Nat → α) (K : Nat) :
    ((List.range K).map f).sum = Finset.sum (Finset.range K) f := rfl

theorem partition_sum (f : List α → Nat) (g : List α → α) (K : Nat) :
    ∀ (ps : List (List α)), (∀ p ∈ ps, f p < K) →
      ((List.range K).map (fun j =>
        ((ps.filter (fun p => decide (f p = j))).map g).sum)).sum = (ps.map g).sum
  | [], _ => by simp
  | p :: ps, h => by
    have ih := partition_sum f g K ps (fun q hq => h q (List.mem_cons_of_mem _ hq))
    have hp : f p < K := h p (List.mem_cons_self _ _)
    rw [range_sum_eq_finset] at ih ⊢
    have hterm : ∀ j, (((p :: ps).filter (fun q => decide (f q = j))).map g).sum
        = (if f p = j then g p else 0)
          + ((ps.filter (fun q => decide (f q = j))).map g).sum := by
      intro j
      by_cases hj : f p = j <;> simp [List.filter_cons, hj]
    simp only [hterm, Finset.sum_add_distrib, ih, List.map_cons, List.sum_cons]
    rw [Finset.sum_ite_eq (Finset.range K) (f p) (fun _ => g p)]
    simp [hp]

/-- C17: with at least one centroid and a dataset of the centroids' dimension, `Iterate`
returns, and in every coordinate `i < D` the sum over the non-empty clusters `j` of
`counts[j] * newCentroids[j][i]` equals the sum of coordinate `i` over all dataset
points; divided by the sum of the counts, which is `N`, this is the dataset mean. -/
theorem C17_count_weighted_centroids_conserve_total (sqrt : α → α) (self : NaiveKMeans α)
    (centroids buf : Mat α) (cnt : List Nat) (hK : 1 ≤ centroids.n_cols)
    (hds : self.dataset.WF) (hdim : self.dataset.n_rows = centroids.n_rows) :
    ∃ r, self.Iterate sqrt centroids buf cnt = some r ∧
      r.counts.sum = self.dataset.n_cols ∧
      ∀ i, i < centroids.n_rows →
        ((List.range centroids.n_cols).map (fun j =>
          if r.counts.getD j 0 ≠ 0 then
            (r.counts.getD j 0 : α) * (r.newCentroids.cols.getD j []).getD i 0
          else 0)).sum
          = (self.dataset.cols.map (fun p => p.getD i 0)).sum ∧
        ((List.range centroids.n_cols).map (fun j =>
          if r.counts.getD j 0 ≠ 0 then
            (r.counts.getD j 0 : α) * (r.newCentroids.cols.getD j []).getD i 0
          else 0)).sum / (r.counts.sum : α)
          = meanCoord self.dataset.cols i := by
  obtain ⟨newCols, counts, hI, hl1, hl2, hall⟩ := Iterate_spec sqrt self centroids buf cnt hK
  obtain ⟨newCols2, counts2, hA, hr⟩ := Iterate_some sqrt self centroids buf cnt _ hI
  have hs := (assignPoints_sum self.metric centroids self.dataset.cols _ _ newCols2 counts2
    (by simp) hA).1
  have hc : counts = counts2 := congrArg IterateResult.counts hr
  subst hc
  have hsum : counts.sum = self.dataset.n_cols := by
    rw [hs]; simp [Mat.n_cols]
  refine ⟨_, hI, hsum, ?_⟩
  intro i hi
  have hmain : ((List.range centroids.n_cols).map (fun j =>
      if counts.getD j 0 ≠ 0 then
        (counts.getD j 0 : α) * ((normalize newCols counts).getD j []).getD i 0
      else 0)).sum = (self.dataset.cols.map (fun p => p.getD i 0)).sum := by
    rw [← partition_sum (closestCluster self.metric centroids) (fun p => p.getD i 0)
      centroids.n_cols self.dataset.cols
      (fun p _ => (closestCluster_isNearest self.metric centroids p hK).1)]
    congr 1
    apply List.map_congr_left
    intro j hj
    have hjK : j < centroids.n_cols := List.mem_range.mp hj
    obtain ⟨h1, h2⟩ := hall j hjK
    have hq : ∀ q ∈ assignedTo self.metric centroids j self.dataset.cols,
        q.length = centroids.n_rows := by
      intro q hq
      rw [← hdim]
      exact hds q (List.mem_of_mem_filter hq)
    have hfold := foldl_vecAdd_getD centroids.n_rows i _
      (List.replicate centroids.n_rows (0 : α)) (by simp) hq
    have hzero : (List.replicate centroids.n_rows (0 : α)).getD i 0 = 0 := by
      simp [List.getD_eq_getElem?_getD, List.getElem?_replicate, hi]
    rw [hzero, zero_add] at hfold
    show _ = ((assignedTo self.metric centroids j self.dataset.cols).map
      (fun p => p.getD i 0)).sum
    by_cases hc0 : counts.getD j 0 = 0
    · have hnil : assignedTo self.metric centroids j self.dataset.cols = [] :=
        List.eq_nil_of_length_eq_zero (by rw [← h2, hc0])
      simp only [hc0, ne_eq, not_true_eq_false, if_false, hnil, List.map_nil, List.sum_nil]
    · rw [if_pos hc0, normalize_getD newCols counts j (by rw [hl1]; exact hjK)
        (by rw [hl1, hl2]), normalizeCol_getD _ _ _ hc0, h1, hfold]
      have hne : (counts.getD j 0 : α) ≠ 0 := Nat.cast_ne_zero.mpr hc0
      rw [mul_div_assoc']
      exact mul_div_cancel_left₀ _ hne
  refine ⟨hmain, ?_⟩
  show _ / (counts.sum : α) = _
  rw [show ((List.range centroids.n_cols).map (fun j =>
      if counts.getD j 0 ≠ 0 then
        (counts.getD j 0 : α) * ((normalize newCols counts).getD j []).getD i 0
      else 0)).sum = (self.dataset.cols.map (fun p => p.getD i 0)).sum from hmain,
    hsum]
  rfl

theorem C17_witness :
    1 ≤ scenarioCentroids.n_cols ∧ scenarioKernel.dataset.WF ∧
    scenarioKernel.dataset.n_rows = scenarioCentroids.n_rows ∧
    ∃ r, scenarioKernel.Iterate id scenarioCentroids ⟨0, []⟩ [] = some r ∧
      r.counts.sum = 4 ∧
      ((List.range 2).map (fun j =>
          if r.counts.getD j 0 ≠ 0 then
            (r.counts.getD j 0 : ℚ) * (r.newCentroids.cols.getD j []).getD 1 0
          else 0)).sum
        = (scenarioKernel.dataset.cols.map (fun p => p.getD 1 0)).sum := by
  have h1 : 1 ≤ scenarioCentroids.n_cols := by decide
  have h2 : scenarioKernel.dataset.WF := by
    simp [Mat.WF, scenarioKernel, NaiveKMeans.new, scenarioData]
  obtain ⟨r, hr, hs, hall⟩ := C17_count_weighted_centroids_conserve_total id scenarioKernel
    scenarioCentroids ⟨0, []⟩ [] h1 h2 rfl
  exact ⟨h1, h2, rfl, r, hr, hs, (hall 1 (by decide)).1⟩

theorem scanCentroidsEvals_eq (metric : List α → List α → α) (p : List α) :
    ∀ (cs : List (List α)) (j : Nat) (m : MinDist α) (cc evals : Nat),
      scanCentroidsEvals metric p cs j m cc evals
        = ((scanCentroids metric p cs j m cc).1, (scanCentroids metric p cs j m cc).2,
            evals + cs.length)
  | [], _, _, _, _ => rfl
  | c :: cs, j, m, cc, evals => by
    simp only [scanCentroidsEvals, scanCentroids, List.length_cons]
    split
    · rw [scanCentroidsEvals_eq metric p cs]
      simp only [Prod.mk.injEq, true_and]; omega
    · rw [scanCentroidsEvals_eq metric p cs]
      simp only [Prod.mk.injEq, true_and]; omega

theorem assignPointsEvals_eq (metric : List α → List α → α) (centroids : Mat α) :
    ∀ (ps : List (List α)) (cols : List (List α)) (counts : List Nat) (evals : Nat),
      assignPointsEvals metric centroids ps cols counts evals
        = (assignPoints metric centroids ps cols counts).map
            (fun r => (r.1, r.2, evals + centroids.n_cols * ps.length))
  | [], cols, counts, evals => by simp [assignPointsEvals, assignPoints]
  | p :: rest, cols, counts, evals => by
    simp only [assignPointsEvals, assignPoints, scanCentroidsEvals_eq, closestCluster]
    split
    · rfl
    · rw [assignPointsEvals_eq metric centroids rest]
      have : evals + centroids.cols.length + centroids.n_cols * rest.length
          = evals + centroids.n_cols * (p :: rest).length := by
        simp only [Mat.n_cols, List.length_cons]; ring
      rw [this]

theorem cNormLoopEvals_eq (metric : List α → List α → α) :
    ∀ (cs ns : List (List α)) (cNorm : α) (evals : Nat),
      cNormLoopEvals metric cs ns cNorm evals
        = (cNormLoop metric cs ns cNorm, evals + min cs.length ns.length)
  | [], _, _, _ => by simp [cNormLoopEvals, cNormLoop]
  | _ :: _, [], _, _ => by simp [cNormLoopEvals, cNormLoop]
  | c :: cs, n :: ns, cNorm, evals => by
    simp only [cNormLoopEvals, cNormLoop, List.length_cons]
    rw [cNormLoopEvals_eq metric cs ns]
    simp only [Prod.mk.injEq, true_and]
    omega

/-- The tally only observes: `IterateEvals` returns what `Iterate` returns, together
with `K * N + K` more calls of `metric.Evaluate`. -/
theorem IterateEvals_eq (sqrt : α → α) (self : NaiveKMeans α) (centroids buf : Mat α)
    (cnt : List Nat) (evals : Nat) :
    self.IterateEvals sqrt centroids buf cnt evals
      = (self.Iterate sqrt centroids buf cnt).map
          (fun r => (r, evals + centroids.n_cols * self.dataset.n_cols + centroids.n_cols)) := by
  cases hA : assignPoints self.metric centroids self.dataset.cols
      (Mat.zeros centroids.n_rows centroids.n_cols : Mat α).cols
      (List.replicate centroids.n_cols 0) with
  | none =>
    simp [NaiveKMeans.IterateEvals, NaiveKMeans.Iterate, assignPointsEvals_eq, hA]
  | some res =>
    obtain ⟨newCols, counts⟩ := res
    have hl := assignPoints_length self.metric centroids _ _ _ newCols counts hA
    have hlen : min centroids.cols.length (normalize newCols counts).length
        = centroids.n_cols := by
      simp [normalize, hl.1, hl.2, Mat.zeros, Mat.n_cols]
    rw [Iterate_eq sqrt self centroids buf cnt newCols counts hA]
    simp only [NaiveKMeans.IterateEvals, assignPointsEvals_eq, hA, Option.map_some',
      cNormLoopEvals_eq, hlen]
    rfl

theorem iterateCallsEvals_eq (sqrt : α → α) :
    ∀ (calls : List (Mat α)) (self : NaiveKMeans α) (buf : Mat α) (cnt : List Nat)
      (evals : Nat),
      iterateCallsEvals sqrt self calls buf cnt evals
        = (iterateCalls sqrt self calls buf cnt).map
            (fun k => (k, evals + self.dataset.n_cols * (calls.map Mat.n_cols).sum
              + (calls.map Mat.n_cols).sum))
  | [], self, buf, cnt, evals => by simp [iterateCallsEvals, iterateCalls]
  | c :: rest, self, buf, cnt, evals => by
    simp only [iterateCallsEvals, iterateCalls, IterateEvals_eq]
    cases hI : self.Iterate sqrt c buf cnt with
    | none => rfl
    | some r =>
      have hd := (Iterate_self sqrt self c buf cnt r hI).1
      simp only [Option.map_some']
      rw [iterateCallsEvals_eq sqrt rest, hd]
      congr 1
      funext k
      simp only [List.map_cons, List.sum_cons, Prod.mk.injEq, true_and]
      ring

/-- C14 (as amended): calls of `Iterate` with `K_1..K_m >= 1` centroids on a fresh kernel
over `N` points all return, and `metric.Evaluate` is called `N * (K_1 + ... + K_m)` times
by the scans plus `K_1 + ... + K_m` times by the distortion loops, while the counter is
`N * (K_1 + ... + K_m)` modulo `2 ^ 64`: below `2 ^ 64` the counter is the number of calls
made by the scans, and the number of all calls exceeds it by `K_1 + ... + K_m`. -/
theorem C14_counter_counts_scan_evaluations_only (sqrt : α → α) (dataset : Mat α)
    (metric : List α → List α → α) (calls : List (Mat α)) (buf : Mat α) (cnt : List Nat)
    (hK : ∀ c ∈ calls, 1 ≤ c.n_cols) :
    ∃ k evals,
      iterateCallsEvals sqrt (NaiveKMeans.new dataset metric) calls buf cnt 0
        = some (k, evals) ∧
      iterateCalls sqrt (NaiveKMeans.new dataset metric) calls buf cnt = some k ∧
      evals = dataset.n_cols * (calls.map Mat.n_cols).sum + (calls.map Mat.n_cols).sum ∧
      k.distanceCalculations = (dataset.n_cols * (calls.map Mat.n_cols).sum) % 2 ^ 64 ∧
      (dataset.n_cols * (calls.map Mat.n_cols).sum < 2 ^ 64 →
        k.distanceCalculations = dataset.n_cols * (calls.map Mat.n_cols).sum ∧
        evals = k.distanceCalculations + (calls.map Mat.n_cols).sum) := by
  obtain ⟨k, hk, _, hc⟩ := iterateCalls_counter sqrt calls
    (NaiveKMeans.new dataset metric) buf cnt (by simp [NaiveKMeans.new]) hK
  have hc2 : k.distanceCalculations
      = (dataset.n_cols * (calls.map Mat.n_cols).sum) % 2 ^ 64 := by
    rw [hc]
    simp [NaiveKMeans.new, SIZE_BITS]
  refine ⟨k, _, ?_, hk, rfl, hc2, fun hlt => ?_⟩
  · rw [iterateCallsEvals_eq, hk]
    simp [NaiveKMeans.new]
  · have hc3 : k.distanceCalculations = dataset.n_cols * (calls.map Mat.n_cols).sum := by
      rw [hc2]; exact Nat.mod_eq_of_lt hlt
    exact ⟨hc3, by rw [hc3]⟩

theorem C14_witness :
    (∀ c ∈ [scenarioCentroids, scenarioCentroids], 1 ≤ c.n_cols) ∧
    scenarioData.n_cols * ([scenarioCentroids, scenarioCentroids].map Mat.n_cols).sum
      < 2 ^ 64 ∧
    ∃ k evals,
      iterateCallsEvals id scenarioKernel [scenarioCentroids, scenarioCentroids] ⟨0, []⟩ [] 0
        = some (k, evals) ∧
      k.distanceCalculations = 16 ∧ evals = 20 := by
  have hK : ∀ c ∈ [scenarioCentroids, scenarioCentroids], 1 ≤ c.n_cols := by decide
  have hlt : scenarioData.n_cols
      * ([scenarioCentroids, scenarioCentroids].map Mat.n_cols).sum < 2 ^ 64 := by decide
  obtain ⟨k, evals, hk, _, he, _, hex⟩ :=
    C14_counter_counts_scan_evaluations_only id scenarioData sqDist
      [scenarioCentroids, scenarioCentroids] ⟨0, []⟩ [] hK
  exact ⟨hK, hlt, k, evals, hk, (hex hlt).1, he⟩

/-- C14 fails as stated: one call of `Iterate` on the fresh scenario kernel (4 points,
2 centroids) calls `metric.Evaluate` 10 times and leaves the counter at 8. -/
theorem C14_counter_misses_distortion_evaluations :
    scenarioKernel.distanceCalculations = 0 ∧
    ∃ r, scenarioKernel.IterateEvals id scenarioCentroids ⟨0, []⟩ [] 0 = some (r, 10) ∧
      r.self.distanceCalculations = 8 ∧ r.self.distanceCalculations ≠ 10 := by
  have h : scenarioKernel.IterateEvals id scenarioCentroids ⟨0, []⟩ [] 0
      = some ({ self := { scenarioKernel with distanceCalculations := 8 }
                newCentroids := ⟨2, [[0, 1], [10, 11]]⟩
                counts := [2, 2]
                distortion := 2 }, 10) := by
    rw [IterateEvals_eq, scenarioKernel_Iterate]
    rfl
  exact ⟨rfl, _, h, rfl, by decide⟩

end kmeans
